import Mathlib

/-!
Formal model of the corelink stream-relay simulator (`src/simulator.ts`).

The development shallowly embeds the parts of the simulator that the
verified properties are about:

* the latency / RPC model (`rpc`, lines 60-78);
* the control plane (`ControlImpl.listRelays` lines 340-363,
  `ControlImpl.askSubscribe` lines 365-414, `Relay.isOverloaded`
  lines 249-251);
* the client subscribe flow (`Client.subscribeStream` lines 171-196);
* the connection lifecycle (`addStreamConnection` lines 90-101,
  `Client.shutdown` lines 198-213, `Client.getStream` lines 125-129,
  `Relay.getStream` lines 236-244);
* the discrete-event scheduler (`schedule` lines 13-31, `sleep`
  lines 33-39, `addTimeout` lines 41-45).

JavaScript numbers are modelled as rationals (`ℚ`), `Math.sqrt` as an
abstract function parameter, object identity as numeric ids resolved in
the relevant global array, and JavaScript objects keyed by integer ids as
lists with keyed insert/delete (integer-keyed objects enumerate in
ascending key order, which here coincides with insertion order since ids
are allocated monotonically).
-/

/-! ## Simulation parameters (src/simulator.ts lines 1-6) -/

def RELAY_MAX_CONNECTIONS : Nat := 8

/-! ## Latency / RPC model (src/simulator.ts lines 60-78)

`Client.latency()` returns 20 (line 121-123) and `Relay.latency()`
returns 2 (line 232-234); both are captured by the `latencyC` field.
`Math.sqrt` is abstracted by the parameter `sq`.
-/

/-- Geometric data of a peer used by `rpc`: its `position` and the value
of its `latency()` method. -/
structure PeerGeom where
  position : ℚ × ℚ
  latencyC : ℚ
deriving DecidableEq

/-- The factor by which `rpc` scales the latency sum (`latency * 20`,
lines 68 and 74 of the source). -/
def LATENCY_SCALE : ℚ := 20

/-- One-way delay of `rpc(source, target, ...)` (lines 62-68): the
Euclidean distance between the positions (via the square-root function
`sq` standing for `Math.sqrt`) plus both peers' latency contributions,
scaled by `LATENCY_SCALE`. -/
def onewayDelay (sq : ℚ → ℚ) (source target : PeerGeom) : ℚ :=
  let dx := source.position.1 - target.position.1
  let dy := source.position.2 - target.position.2
  let dist := sq (dx * dx + dy * dy)
  (dist + source.latencyC + target.latencyC) * LATENCY_SCALE

/-- Timing behaviour of one `rpc` call: the sleep taken before invoking
the operation (line 68) and the sleep taken after it returns (line 74). -/
structure RpcTrace where
  sleepBefore : ℚ
  sleepAfter : ℚ
deriving DecidableEq

/-- The two sleeps performed by `rpc(source, target, method, ...)`
(lines 60-78): both equal the one-way delay. -/
def rpcTrace (sq : ℚ → ℚ) (source target : PeerGeom) : RpcTrace :=
  { sleepBefore := onewayDelay sq source target
    sleepAfter := onewayDelay sq source target }

/-! ## Relays and the control plane (src/simulator.ts lines 216-257, 332-415)

A `Relay` object is modelled by `RelayB`; peers referenced from a
connection are modelled by numeric ids (`rid`), resolved against the
global `relays` array when needed.  A connection stored in a relay's
`connections` object is modelled by `ConnB`, keeping exactly the fields
`askSubscribe` inspects: whether `connection.source instanceof Client`
holds, the id of `connection.target`, and `connection.streamId`.
-/

/-- Projection of a `Connection` as seen from a relay's `connections`
set by the control plane. -/
structure ConnB where
  srcClient : Bool
  tgt : Nat
  streamId : Nat
deriving DecidableEq

/-- A `Relay` (class at lines 216-252): identity, `zone`, and its
`connections` set. -/
structure RelayB where
  rid : Nat
  zone : String
  conns : List ConnB
deriving DecidableEq

/-- `Relay.isOverloaded` (lines 249-251):
`Object.values(this.connections).length >= RELAY_MAX_CONNECTIONS`. -/
def RelayB.isOverloaded (r : RelayB) : Bool :=
  RELAY_MAX_CONNECTIONS ≤ r.conns.length

/-- Resolve a peer id in the global `relays` array (object references in
the source; every connection whose source is a Client targets a relay in
that array, so the lookup mirrors dereferencing the object). -/
def findRelay (rs : List RelayB) (i : Nat) : Option RelayB :=
  rs.find? (fun r => r.rid == i)

/-- One step of the scan at lines 370-377: the inner loop over one
relay's connections, keeping the target of the last connection whose
stream matches and whose source is a Client. -/
def scanConnsForSource (sid : Nat) (acc : Option Nat) (cs : List ConnB) : Option Nat :=
  cs.foldl (fun acc c => if c.streamId == sid && c.srcClient then some c.tgt else acc) acc

/-- The scan at lines 370-377 locating the stream's source relay: over
all relays and all of their connections, the target of the last
connection carrying `sid` whose source is a Client. -/
def findSourceRelay (rs : List RelayB) (sid : Nat) : Option Nat :=
  rs.foldl (fun acc r => scanConnsForSource sid acc r.conns) none

/-- Inner loop of the home-zone scan (lines 397-406): for each
connection of `r` that targets `r` itself and carries `sid`, push `r`
and record that a home-zone relay was found. -/
def scanHomeZoneConns (r : RelayB) (sid : Nat) (cf : List Nat × Bool) : List Nat × Bool :=
  r.conns.foldl
    (fun cf c =>
      if c.tgt == r.rid && c.streamId == sid then (cf.1 ++ [r.rid], true) else cf)
    cf

/-- The home-zone scan (lines 390-407): relays in `homeRelay`'s zone
that are not overloaded contribute once per connection by which they
already receive `sid`. -/
def scanHomeZone (rs : List RelayB) (homeZone : String) (sid : Nat)
    (cf : List Nat × Bool) : List Nat × Bool :=
  rs.foldl
    (fun cf r =>
      if r.zone == homeZone && !r.isOverloaded then scanHomeZoneConns r sid cf else cf)
    cf

/-- `ControlImpl.askSubscribe` (lines 365-414).  Returns the ordered
candidate list as peer ids.  Lines 379-382 only log a diagnostic before
returning the empty list, so the global `streams` array does not affect
the result and is not a parameter.  In the simulator every connection
with a Client source targets a relay present in `rs`, so the `none`
branch of the lookup is unreachable; it defaults to keeping the
candidate. -/
def askSubscribe (rs : List RelayB) (homeRelay : RelayB) (sid : Nat) : List Nat :=
  match findSourceRelay rs sid with
  | none => []
  | some srid =>
    let candidates : List Nat :=
      match findRelay rs srid with
      | some sr => if sr.isOverloaded then [] else [srid]
      | none => [srid]
    let cf := scanHomeZone rs homeRelay.zone sid (candidates, false)
    if !cf.2 then cf.1 ++ [homeRelay.rid] else cf.1

/-- One step of the zone-partition fold of `ControlImpl.listRelays`
(lines 343-360): skip overloaded relays; otherwise record the relay for
its zone if the zone has no pick yet or this relay has strictly fewer
connections than the current pick (JavaScript object key update keeps
the key's position). -/
def listRelaysStep (zones : List (String × RelayB)) (relay : RelayB) :
    List (String × RelayB) :=
  if relay.isOverloaded then zones
  else
    match (zones.find? (fun p => p.1 == relay.zone)).map Prod.snd with
    | none => zones ++ [(relay.zone, relay)]
    | some prev =>
      if relay.conns.length < prev.conns.length then
        zones.map (fun p => if p.1 == relay.zone then (p.1, relay) else p)
      else zones

/-- `ControlImpl.listRelays` (lines 340-363): one relay per zone, the
first least-loaded non-overloaded one. -/
def listRelays (rs : List RelayB) : List RelayB :=
  (rs.foldl listRelaysStep []).map Prod.snd

/-! ## Client subscribe flow (src/simulator.ts lines 171-196)

`Client.subscribeStream` is an async method; its observable behaviour is
captured as the final value of the `failed` flag together with the
ordered list of effects it performs after the routing query.  The home
relay is a parameter: it is the result of the ping race in
`findHomeRelay` (lines 131-150), `none` when no relay was available.
-/

/-- The fixed grace period a failed client waits before shutting down
(`sleep(10000)`, lines 175 and 187). -/
def GRACE_PERIOD : ℚ := 10000

/-- Observable effects of `Client.subscribeStream` after routing. -/
inductive ClientAct where
  | sleepFor (d : ℚ)
  | shutdownSelf
  | connect (src : Nat) (sid : Nat)
deriving DecidableEq

/-- Result of one `subscribeStream` call: the value of `this.failed`
when the call completes and the effects performed, in order. -/
structure SubOutcome where
  failed : Bool
  acts : List ClientAct
deriving DecidableEq

/-- `Client.subscribeStream(streamId)` (lines 171-196), given the global
relay array, the global live-stream array `streams`, the home relay
found (or `none`), and the stream id. -/
def subscribeStream (rs : List RelayB) (streamsLive : List Nat)
    (homeRelay : Option RelayB) (sid : Nat) : SubOutcome :=
  match homeRelay with
  | none =>
    { failed := true, acts := [.sleepFor GRACE_PERIOD, .shutdownSelf] }
  | some hr =>
    match askSubscribe rs hr sid with
    | [] =>
      if streamsLive.contains sid then
        { failed := true, acts := [.sleepFor GRACE_PERIOD, .shutdownSelf] }
      else
        { failed := false, acts := [.shutdownSelf] }
    | r :: _ =>
      { failed := false, acts := [.connect r sid] }

/-! ## Connection lifecycle (src/simulator.ts lines 50-58, 80-252)

Peers are heap objects referenced from connections; the heap is modelled
as a list indexed by peer id.  A JavaScript object keyed by connection
id (`connections` globally at line 87, and each peer's `connections`
field) is modelled as a list of `Conn` records with keyed insertion
(`obj[id] = c`: replace if the key is present, else append) and keyed
deletion (`delete obj[id]`).
-/

/-- A `Connection` (interface at lines 80-85): its id, its endpoints as
peer ids, and the stream it carries. -/
structure Conn where
  id : Nat
  source : Nat
  target : Nat
  streamId : Nat
deriving DecidableEq

/-- Which concrete `Peer` class the object belongs to: a `Client` with
its optional `publishedStream` (line 110) or a `Relay` with its `zone`
(line 220). -/
inductive PeerKind where
  | client (publishedStream : Option Nat)
  | relay (zone : String)
deriving DecidableEq

/-- A `Peer` object (interface at lines 50-58): name, class-specific
data, `running` flag, and local `connections` set. -/
structure PeerRec where
  name : String
  kind : PeerKind
  running : Bool
  conns : List Conn
deriving DecidableEq

/-- Global mutable state touched by the connection lifecycle: the peer
heap, the global `clients` array (line 267, as peer ids), the global
`connections` table (line 87), and `nextConnectionId` (line 88). -/
structure NetState where
  heap : List PeerRec
  clients : List Nat
  conns : List Conn
  nextConnectionId : Nat
deriving DecidableEq

/-- Keyed insertion `obj[c.id] = c` into a connections set. -/
def insertKeyed (c : Conn) (l : List Conn) : List Conn :=
  if l.any (fun c2 => c2.id == c.id) then
    l.map (fun c2 => if c2.id == c.id then c else c2)
  else l ++ [c]

/-- Keyed deletion `delete obj[i]` from a connections set. -/
def removeKeyed (i : Nat) (l : List Conn) : List Conn :=
  l.filter (fun c => c.id != i)

/-- Mutate the peer object at id `pid` in place (no effect on a dangling
id, which cannot occur in the simulator since references are objects). -/
def modifyPeer (s : NetState) (pid : Nat) (f : PeerRec → PeerRec) : NetState :=
  match s.heap[pid]? with
  | some p => { s with heap := s.heap.set pid (f p) }
  | none => s

/-- `peer.connections[c.id] = c` as a peer mutation. -/
def connInsert (c : Conn) : PeerRec → PeerRec :=
  fun p => { p with conns := insertKeyed c p.conns }

/-- `delete peer.connections[i]` as a peer mutation. -/
def connRemove (i : Nat) : PeerRec → PeerRec :=
  fun p => { p with conns := removeKeyed i p.conns }

/-- The serve check `source.getStream(streamId)` awaited at line 92:
`Client.getStream` (lines 125-129) throws iff the stream id differs
from `this.publishedStream`; `Relay.getStream` (lines 236-244) scans
its connections but resolves normally in either case (the miss branch
is an unimplemented TODO).  `true` means the promise resolves. -/
def getStreamOk (p : PeerRec) (sid : Nat) : Bool :=
  match p.kind with
  | .client pub => pub == some sid
  | .relay _ => true

/-- The condition scanned by `Relay.getStream` (lines 237-242): some
connection of the relay `p` (whose own peer id is `self`) targets the
relay itself and carries `sid`, i.e. the relay is already receiving the
stream. -/
def relayReceiving (p : PeerRec) (self sid : Nat) : Bool :=
  p.conns.any (fun c => c.target == self && c.streamId == sid)

/-- `addStreamConnection(source, target, streamId)` (lines 90-101):
allocate the next connection id, await the source's serve check (an
exception aborts the call with the id already consumed), and if both
endpoints are still running record the connection in the global table
and in both endpoints' local sets. -/
def addStreamConnection (s : NetState) (src tgt sid : Nat) : NetState :=
  let i := s.nextConnectionId
  let s1 : NetState := { s with nextConnectionId := i + 1 }
  match s1.heap[src]?, s1.heap[tgt]? with
  | some ps, some pt =>
    if getStreamOk ps sid then
      if ps.running && pt.running then
        let c : Conn := ⟨i, src, tgt, sid⟩
        let s2 : NetState := { s1 with conns := insertKeyed c s1.conns }
        let s3 := modifyPeer s2 src (connInsert c)
        modifyPeer s3 tgt (connInsert c)
      else s1
    else s1
  | _, _ => s1

/-- One iteration of the teardown loop in `Client.shutdown`
(lines 208-212): delete the connection from its source's set, from its
target's set, and from the global table. -/
def removeConnEverywhere (s : NetState) (c : Conn) : NetState :=
  let s1 := modifyPeer s c.source (connRemove c.id)
  let s2 := modifyPeer s1 c.target (connRemove c.id)
  { s2 with conns := removeKeyed c.id s2.conns }

/-- The predicate of `clients.findIndex(c => c.name === this.name)`
(line 202), over peer ids in the clients registry. -/
def clientNameMatches (heap : List PeerRec) (nm : String) (q : Nat) : Bool :=
  match heap[q]? with
  | some pq => pq.name == nm
  | none => false

/-- `Client.shutdown` (lines 198-213): clear `running`, splice the first
registry entry with this client's name, then tear down a snapshot of the
client's own connections. -/
def shutdown (s : NetState) (pid : Nat) : NetState :=
  match s.heap[pid]? with
  | none => s
  | some p =>
    let s1 := modifyPeer s pid (fun q => { q with running := false })
    let s2 : NetState :=
      { s1 with clients := s1.clients.eraseP (clientNameMatches s1.heap p.name) }
    p.conns.foldl removeConnEverywhere s2

/-- The churn driver creating a client (lines 276-283): a fresh Client
object is pushed onto the heap and registered in `clients`. -/
def spawnClient (s : NetState) (nm : String) (pub : Option Nat) : NetState :=
  { s with
    heap := s.heap ++ [⟨nm, .client pub, true, []⟩]
    clients := s.clients ++ [s.heap.length] }

/-- One atomic mutation of the shared connection state: a
connection-establishment call, a shutdown, or the driver spawning a
client.  Each runs without interleaving (the only suspension points in
the simulator are `sleep` calls, and none occurs inside the mutating
stretch of these operations). -/
inductive NetStep : NetState → NetState → Prop where
  | estab (s : NetState) (src tgt sid : Nat) : NetStep s (addStreamConnection s src tgt sid)
  | shut (s : NetState) (pid : Nat) : NetStep s (shutdown s pid)
  | spawn (s : NetState) (nm : String) (pub : Option Nat) : NetStep s (spawnClient s nm pub)

/-- States the simulator can start from: no connections anywhere and no
ids allocated (the page loads with empty `connections` and all peers
constructed with empty local sets). -/
def InitOk (s : NetState) : Prop :=
  s.conns = [] ∧ s.nextConnectionId = 0 ∧ ∀ p ∈ s.heap, p.conns = []

instance : DecidablePred InitOk := fun s => by
  unfold InitOk; infer_instance

/-- Reachability under any sequence of establishment, shutdown and
spawn calls. -/
def Reachable (s0 s : NetState) : Prop :=
  Relation.ReflTransGen NetStep s0 s

/-- A connection record is consistently registered in state `s`: its id
is below the allocator and it sits in both endpoints' local sets. -/
def connOkIn (s : NetState) (c : Conn) : Prop :=
  c.id < s.nextConnectionId ∧
  (∃ ps, s.heap[c.source]? = some ps ∧ c ∈ ps.conns) ∧
  (∃ pt, s.heap[c.target]? = some pt ∧ c ∈ pt.conns)

/-- The triple-bookkeeping invariant: every table entry is in both
endpoint sets; every local-set entry is a table entry of an incident
connection; table ids are distinct. -/
def NetInv (s : NetState) : Prop :=
  (∀ c ∈ s.conns, connOkIn s c) ∧
  (∀ pid p, s.heap[pid]? = some p → ∀ c ∈ p.conns,
      c ∈ s.conns ∧ (c.source = pid ∨ c.target = pid)) ∧
  s.conns.Pairwise (fun a b => a.id ≠ b.id)

/-! ## Discrete-event scheduler (src/simulator.ts lines 8-45)

The `events` array of `(fireTime, continuation)` pairs is modelled as a
list of `Ev` records; the continuation itself is irrelevant to the
timing contract and is replaced by a ghost sequence number recording
scheduling order.  `events.sort((a, b) => a[0] - b[0])` is a stable sort
by fire time (`Array.prototype.sort` is stable), embedded as insertion
sort, whose output any stable sort agrees with.  One timer expiry
(lines 22-27) sets `currentTime` to the head event's fire time, runs the
continuation — whose own `sleep`/`addTimeout` calls append and re-sort
while the fired pair is still in the array — then removes index 0 and
re-schedules.  Every duration the simulator passes to `sleep` or
`addTimeout` is non-negative (`latency * 20` with non-negative
components, `10000`, `CLIENT_CHANGE_RATE = 400`), which the step
relation records.
-/

/-- A pending scheduler entry: its fire time and a ghost sequence number
giving the order in which it was scheduled. -/
structure Ev where
  fireTime : ℚ
  seq : Nat
deriving DecidableEq

/-- Strict scheduling order: earlier fire time, or equal fire time and
scheduled earlier. -/
def evLt (a b : Ev) : Prop :=
  a.fireTime < b.fireTime ∨ (a.fireTime = b.fireTime ∧ a.seq < b.seq)

instance : DecidableRel evLt := fun a b => by
  unfold evLt; infer_instance

/-- Stable insertion of an entry into a fire-time-sorted list: the entry
goes in front of the first entry whose fire time is not smaller. -/
def insertEv (e : Ev) : List Ev → List Ev
  | [] => [e]
  | f :: rest => if f.fireTime < e.fireTime then f :: insertEv e rest else e :: f :: rest

/-- Stable sort by fire time, the effect of
`events.sort((a, b) => a[0] - b[0])` (line 14). -/
def sortEvents : List Ev → List Ev
  | [] => []
  | x :: xs => insertEv x (sortEvents xs)

/-- Scheduler state: the virtual clock `currentTime` (line 9), the
pending `events` array (line 10), the next ghost sequence number, and
the ghost trace of entries fired so far, in firing order. -/
structure SchedState where
  currentTime : ℚ
  events : List Ev
  nextSeq : Nat
  fired : List Ev
deriving DecidableEq

/-- The state at page load: time `0.0` and no pending events
(lines 9-10). -/
def schedInit : SchedState :=
  { currentTime := 0, events := [], nextSeq := 0, fired := [] }

/-- Registering a continuation at `currentTime + duration`, the shared
body of `sleep` (lines 33-39) and `addTimeout` (lines 41-45): push onto
`events`, then `schedule()` re-sorts the array. -/
def pushEvent (s : SchedState) (d : ℚ) : SchedState :=
  { s with
    events := sortEvents (s.events ++ [(⟨s.currentTime + d, s.nextSeq⟩ : Ev)])
    nextSeq := s.nextSeq + 1 }

/-- One timer expiry (lines 21-29): jump the clock to the head entry's
fire time, run its continuation — modelled by the list `ds` of durations
the continuation itself registers, applied while the fired pair is still
in the array, exactly as in the source — then `events.splice(0, 1)`
removes index 0.  With no pending event nothing fires (line 19). -/
def fireEvent (s : SchedState) (ds : List ℚ) : SchedState :=
  match s.events with
  | [] => s
  | e :: _ =>
    let s1 : SchedState := { s with currentTime := e.fireTime }
    let s2 := ds.foldl pushEvent s1
    { s2 with events := s2.events.tail, fired := s2.fired ++ [e] }

/-- One scheduler transition: a registration with a non-negative
duration, or a timer expiry whose continuation registers non-negative
durations. -/
inductive SchedStep : SchedState → SchedState → Prop where
  | push (s : SchedState) (d : ℚ) (hd : 0 ≤ d) : SchedStep s (pushEvent s d)
  | fire (s : SchedState) (ds : List ℚ) (hds : ∀ d ∈ ds, 0 ≤ d) :
      SchedStep s (fireEvent s ds)

/-- Scheduler states reachable from page load. -/
def SchedReachable (s : SchedState) : Prop :=
  Relation.ReflTransGen SchedStep schedInit s

/-- Invariant of the scheduler: pending events are sorted strictly by
`evLt` with all fire times at or after the clock and all sequence
numbers allocated; the fired trace is `evLt`-sorted, wholly before every
pending event, and at or before the clock. -/
def SchedInv (s : SchedState) : Prop :=
  s.events.Pairwise evLt ∧
  (∀ e ∈ s.events, s.currentTime ≤ e.fireTime ∧ e.seq < s.nextSeq) ∧
  s.fired.Pairwise evLt ∧
  (∀ f ∈ s.fired, ∀ e ∈ s.events, evLt f e) ∧
  (∀ f ∈ s.fired, f.fireTime ≤ s.currentTime ∧ f.seq < s.nextSeq)

/-- Invariant of the zone-partition fold in `listRelays`: after
processing the relays in `done`, every recorded entry holds an eligible
relay from `done` of its own zone with minimal load among `done`'s
eligible relays of that zone, keys are distinct, and every eligible
relay of `done` has an entry for its zone. -/
def ZonesProp (done : List RelayB) (zones : List (String × RelayB)) : Prop :=
  (∀ p ∈ zones, p.2.zone = p.1 ∧ p.2 ∈ done ∧ p.2.isOverloaded = false ∧
    ∀ r ∈ done, r.zone = p.1 → r.isOverloaded = false →
      p.2.conns.length ≤ r.conns.length) ∧
  zones.Pairwise (fun a b => a.1 ≠ b.1) ∧
  (∀ r ∈ done, r.isOverloaded = false → ∃ p ∈ zones, p.1 = r.zone)


/-! ## Theorems -/

/-- C7: the one-way delay used by `rpc(source, target, ...)` equals the
fixed constant `LATENCY_SCALE` times the Euclidean distance between the
positions plus both peers' latency contributions; `rpc` sleeps this
delay once before and once after invoking the operation; and the delay
is symmetric in the two peers. -/
theorem c7_rpc_delay_symmetric (sq : ℚ → ℚ) (a b : PeerGeom) :
    rpcTrace sq a b = ⟨onewayDelay sq a b, onewayDelay sq a b⟩ ∧
    onewayDelay sq a b =
      (sq ((a.position.1 - b.position.1) * (a.position.1 - b.position.1) +
            (a.position.2 - b.position.2) * (a.position.2 - b.position.2)) +
          a.latencyC + b.latencyC) * LATENCY_SCALE ∧
    onewayDelay sq a b = onewayDelay sq b a := by
  refine ⟨rfl, rfl, ?_⟩
  show (sq ((a.position.1 - b.position.1) * (a.position.1 - b.position.1) +
        (a.position.2 - b.position.2) * (a.position.2 - b.position.2)) +
      a.latencyC + b.latencyC) * LATENCY_SCALE =
    (sq ((b.position.1 - a.position.1) * (b.position.1 - a.position.1) +
        (b.position.2 - a.position.2) * (b.position.2 - a.position.2)) +
      b.latencyC + a.latencyC) * LATENCY_SCALE
  have h : (a.position.1 - b.position.1) * (a.position.1 - b.position.1) +
      (a.position.2 - b.position.2) * (a.position.2 - b.position.2) =
      (b.position.1 - a.position.1) * (b.position.1 - a.position.1) +
      (b.position.2 - a.position.2) * (b.position.2 - a.position.2) := by ring
  rw [h]; ring

/-- In a list of zone entries with pairwise-distinct keys, an entry is
determined by its key. -/
theorem key_unique {zones : List (String × RelayB)}
    (hp : zones.Pairwise (fun a b => a.1 ≠ b.1)) {p q : String × RelayB}
    (hpm : p ∈ zones) (hqm : q ∈ zones) (hk : p.1 = q.1) : p = q := by
  induction zones with
  | nil => cases hpm
  | cons h t ih =>
    rcases List.pairwise_cons.mp hp with ⟨hh, ht⟩
    rcases List.mem_cons.mp hpm with hpe | hpt
    · rcases List.mem_cons.mp hqm with hqe | hqt
      · rw [hpe, hqe]
      · exact absurd (hpe ▸ hk) (hh q hqt)
    · rcases List.mem_cons.mp hqm with hqe | hqt
      · exact absurd (hqe ▸ hk).symm (hh p hpt)
      · exact ih ht hpt hqt

theorem zonesProp_step {done : List RelayB} {zones : List (String × RelayB)}
    (h : ZonesProp done zones) (x : RelayB) :
    ZonesProp (done ++ [x]) (listRelaysStep zones x) := by
  obtain ⟨hmin, hkeys, hcov⟩ := h
  by_cases hov : x.isOverloaded = true
  · unfold listRelaysStep
    rw [hov]
    simp only [if_true]
    refine ⟨?_, hkeys, ?_⟩
    · intro p hpm
      obtain ⟨h1, h2, h3, h4⟩ := hmin p hpm
      refine ⟨h1, List.mem_append_left _ h2, h3, ?_⟩
      intro r hrm hz hre
      rcases List.mem_append.mp hrm with hrd | hrx
      · exact h4 r hrd hz hre
      · rw [List.mem_singleton.mp hrx] at hre
        rw [hov] at hre; cases hre
    · intro r hrm hre
      rcases List.mem_append.mp hrm with hrd | hrx
      · exact hcov r hrd hre
      · rw [List.mem_singleton.mp hrx] at hre
        rw [hov] at hre; cases hre
  · rw [Bool.not_eq_true] at hov
    unfold listRelaysStep
    rw [hov]
    simp only [Bool.false_eq_true, if_false]
    cases hfind : zones.find? (fun p => p.1 == x.zone) with
    | none =>
      simp only [hfind, Option.map_none']
      have hnone : ∀ p ∈ zones, p.1 ≠ x.zone := by
        intro p hpm
        have := List.find?_eq_none.mp hfind p hpm
        simpa using this
      refine ⟨?_, ?_, ?_⟩
      · intro p hpm
        rcases List.mem_append.mp hpm with hpz | hpx
        · obtain ⟨h1, h2, h3, h4⟩ := hmin p hpz
          refine ⟨h1, List.mem_append_left _ h2, h3, ?_⟩
          intro r hrm hz hre
          rcases List.mem_append.mp hrm with hrd | hrx
          · exact h4 r hrd hz hre
          · rw [List.mem_singleton.mp hrx] at hz
            exact absurd hz.symm (hnone p hpz)
        · rw [List.mem_singleton.mp hpx]
          refine ⟨rfl, List.mem_append_right _ (List.mem_singleton.mpr rfl), hov, ?_⟩
          intro r hrm hz hre
          rcases List.mem_append.mp hrm with hrd | hrx
          · obtain ⟨q, hqm, hqz⟩ := hcov r hrd hre
            exact absurd (hqz.trans hz) (hnone q hqm)
          · rw [List.mem_singleton.mp hrx]
      · rw [List.pairwise_append]
        refine ⟨hkeys, List.pairwise_singleton _ _, ?_⟩
        intro p hpm q hqm
        rw [List.mem_singleton.mp hqm]
        exact hnone p hpm
      · intro r hrm hre
        rcases List.mem_append.mp hrm with hrd | hrx
        · obtain ⟨q, hqm, hqz⟩ := hcov r hrd hre
          exact ⟨q, List.mem_append_left _ hqm, hqz⟩
        · rw [List.mem_singleton.mp hrx]
          exact ⟨(x.zone, x), List.mem_append_right _ (List.mem_singleton.mpr rfl), rfl⟩
    | some pr =>
      simp only [hfind, Option.map_some']
      have hprm : pr ∈ zones := List.mem_of_find?_eq_some hfind
      have hprk : pr.1 = x.zone := by
        have := List.find?_some hfind
        simpa using this
      have honly : ∀ p ∈ zones, p.1 = x.zone → p = pr := by
        intro p hpm hpk
        exact key_unique hkeys hpm hprm (hpk.trans hprk.symm)
      obtain ⟨hp1, hp2, hp3, hp4⟩ := hmin pr hprm
      by_cases hless : x.conns.length < pr.2.conns.length
      · simp only [hless, if_true]
        have hkeep : ∀ q : String × RelayB,
            (if (q.1 == x.zone) = true then (q.1, x) else q).1 = q.1 := by
          intro q
          by_cases hqk : q.1 = x.zone <;> simp [hqk]
        refine ⟨?_, ?_, ?_⟩
        · intro p hpm
          rw [List.mem_map] at hpm
          obtain ⟨q, hqm, hqe⟩ := hpm
          by_cases hqk : q.1 = x.zone
          · have hifq : (if (q.1 == x.zone) = true then (q.1, x) else q) = (q.1, x) := by
              simp [hqk]
            rw [hifq] at hqe
            rw [← hqe]
            refine ⟨hqk.symm, List.mem_append_right _ (List.mem_singleton.mpr rfl), hov, ?_⟩
            intro r hrm hz hre
            rcases List.mem_append.mp hrm with hrd | hrx
            · have hr2 : r.zone = pr.1 := by
                rw [hz]
                show q.1 = pr.1
                exact hqk.trans hprk.symm
              have := hp4 r hrd hr2 hre
              show x.conns.length ≤ r.conns.length
              omega
            · rw [List.mem_singleton.mp hrx]
          · have hifq : (if (q.1 == x.zone) = true then (q.1, x) else q) = q := by
              simp [hqk]
            rw [hifq] at hqe
            rw [← hqe]
            obtain ⟨h1, h2, h3, h4⟩ := hmin q hqm
            refine ⟨h1, List.mem_append_left _ h2, h3, ?_⟩
            intro r hrm hz hre
            rcases List.mem_append.mp hrm with hrd | hrx
            · exact h4 r hrd hz hre
            · rw [List.mem_singleton.mp hrx] at hz
              exact absurd hz.symm hqk
        · refine List.pairwise_map.mpr (hkeys.imp ?_)
          intro a b hab
          rw [hkeep a, hkeep b]
          exact hab
        · intro r hrm hre
          rcases List.mem_append.mp hrm with hrd | hrx
          · obtain ⟨q, hqm, hqz⟩ := hcov r hrd hre
            refine ⟨if (q.1 == x.zone) = true then (q.1, x) else q,
              List.mem_map_of_mem _ hqm, ?_⟩
            rw [hkeep q]
            exact hqz
          · rw [List.mem_singleton.mp hrx]
            refine ⟨if (pr.1 == x.zone) = true then (pr.1, x) else pr,
              List.mem_map_of_mem _ hprm, ?_⟩
            rw [hkeep pr]
            exact hprk
      · simp only [hless, if_false]
        refine ⟨?_, hkeys, ?_⟩
        · intro p hpm
          obtain ⟨h1, h2, h3, h4⟩ := hmin p hpm
          refine ⟨h1, List.mem_append_left _ h2, h3, ?_⟩
          intro r hrm hz hre
          rcases List.mem_append.mp hrm with hrd | hrx
          · exact h4 r hrd hz hre
          · rw [List.mem_singleton.mp hrx] at hz ⊢
            have hpq : p = pr := honly p hpm (by rw [← hz])
            rw [hpq]
            omega
        · intro r hrm hre
          rcases List.mem_append.mp hrm with hrd | hrx
          · exact hcov r hrd hre
          · rw [List.mem_singleton.mp hrx]
            exact ⟨pr, hprm, hprk⟩

theorem zonesProp_fold (rest : List RelayB) :
    ∀ (done : List RelayB) (zones : List (String × RelayB)),
      ZonesProp done zones →
      ZonesProp (done ++ rest) (rest.foldl listRelaysStep zones) := by
  induction rest with
  | nil => intro done zones h; simpa using h
  | cons x t ih =>
    intro done zones h
    have h2 := zonesProp_step h x
    have h3 := ih (done ++ [x]) (listRelaysStep zones x) h2
    simpa using h3

theorem zonesProp_listRelays (rs : List RelayB) :
    ZonesProp rs (rs.foldl listRelaysStep []) := by
  have h0 : ZonesProp [] [] := by
    refine ⟨?_, List.Pairwise.nil, ?_⟩
    · intro p hpm; cases hpm
    · intro r hrm; cases hrm
  have := zonesProp_fold rs [] [] h0
  simpa using this

/-- C3: for every relay set, `listRelays` returns no overloaded relay,
at most one relay per zone, and each returned relay is an eligible relay
of the set with the fewest live connections among its zone's
non-overloaded relays; a zone with no eligible relay contributes
nothing, and the result is empty when no relay anywhere is eligible. -/
theorem c3_listRelays (rs : List RelayB) :
    (∀ r ∈ listRelays rs, r.isOverloaded = false) ∧
    (∀ r1 ∈ listRelays rs, ∀ r2 ∈ listRelays rs, r1.zone = r2.zone → r1 = r2) ∧
    (∀ r ∈ listRelays rs, r ∈ rs ∧
      ∀ r2 ∈ rs, r2.zone = r.zone → r2.isOverloaded = false →
        r.conns.length ≤ r2.conns.length) ∧
    (∀ z : String, (∀ r ∈ rs, r.zone = z → r.isOverloaded = true) →
      ∀ r ∈ listRelays rs, r.zone ≠ z) ∧
    ((∀ r ∈ rs, r.isOverloaded = true) → listRelays rs = []) := by
  obtain ⟨hmin, hkeys, _⟩ := zonesProp_listRelays rs
  have hmem : ∀ r ∈ listRelays rs, ∃ p ∈ rs.foldl listRelaysStep [], p.2 = r := by
    intro r hr
    exact List.mem_map.mp hr
  have hbasic : ∀ r ∈ listRelays rs, r ∈ rs ∧ r.isOverloaded = false ∧
      ∀ r2 ∈ rs, r2.zone = r.zone → r2.isOverloaded = false →
        r.conns.length ≤ r2.conns.length := by
    intro r hr
    obtain ⟨p, hpm, hpe⟩ := hmem r hr
    obtain ⟨h1, h2, h3, h4⟩ := hmin p hpm
    rw [hpe] at h1 h2 h3 h4
    refine ⟨h2, h3, ?_⟩
    intro r2 hr2 hz hre
    exact h4 r2 hr2 (by rw [hz, h1]) hre
  refine ⟨?_, ?_, ?_, ?_, ?_⟩
  · intro r hr
    exact (hbasic r hr).2.1
  · intro r1 hr1 r2 hr2 hz
    obtain ⟨p1, hp1m, hp1e⟩ := hmem r1 hr1
    obtain ⟨p2, hp2m, hp2e⟩ := hmem r2 hr2
    have hz1 : p1.2.zone = p1.1 := (hmin p1 hp1m).1
    have hz2 : p2.2.zone = p2.1 := (hmin p2 hp2m).1
    have hk : p1.1 = p2.1 := by
      rw [← hz1, ← hz2, hp1e, hp2e, hz]
    have := key_unique hkeys hp1m hp2m hk
    rw [← hp1e, ← hp2e, this]
  · intro r hr
    exact ⟨(hbasic r hr).1, (hbasic r hr).2.2⟩
  · intro z hall r hr hz
    have h1 := (hbasic r hr).1
    have h2 := (hbasic r hr).2.1
    rw [hall r h1 hz] at h2
    cases h2
  · intro hall
    rw [List.eq_nil_iff_forall_not_mem]
    intro r hr
    have h1 := (hbasic r hr).1
    have h2 := (hbasic r hr).2.1
    rw [hall r h1] at h2
    cases h2

/-- Witness for C3 at the concrete relay set with one overloaded relay
and two eligible ones in the same zone. -/
theorem c3_listRelays_witness :
    RelayB.isOverloaded ⟨2, "z", [⟨false, 0, 0⟩]⟩ = false ∧
    (⟨2, "z", [⟨false, 0, 0⟩]⟩ : RelayB).conns.length ≤
      (⟨3, "z", [⟨false, 0, 0⟩, ⟨false, 0, 0⟩]⟩ : RelayB).conns.length := by
  have h := c3_listRelays [⟨1, "z", List.replicate 8 ⟨false, 0, 0⟩⟩,
    ⟨2, "z", [⟨false, 0, 0⟩]⟩, ⟨3, "z", [⟨false, 0, 0⟩, ⟨false, 0, 0⟩]⟩]
  refine ⟨h.1 _ ?_, ((h.2.2.1 _ ?_).2 _ ?_ ?_ ?_ : _)⟩
  · decide
  · decide
  · decide
  · decide
  · decide

/-- The source-relay scan over one relay's connections leaves the
accumulator unchanged when no connection matches. -/
theorem scanConns_no_match (sid : Nat) :
    ∀ (cs : List ConnB) (acc : Option Nat),
      (∀ c ∈ cs, (c.streamId == sid && c.srcClient) = false) →
      scanConnsForSource sid acc cs = acc := by
  intro cs
  induction cs with
  | nil => intro acc _; rfl
  | cons c t ih =>
    intro acc h
    have hc := h c (List.mem_cons_self c t)
    simp only [scanConnsForSource, List.foldl_cons, hc, Bool.false_eq_true, if_false]
    exact ih acc fun c2 h2 => h c2 (List.mem_cons_of_mem c h2)

/-- The source-relay scan over one relay's connections yields `some v`
when every matching connection targets `v` and either the accumulator is
already `some v` or some connection matches. -/
theorem scanConns_all_to (sid v : Nat) :
    ∀ (cs : List ConnB) (acc : Option Nat),
      (∀ c ∈ cs, (c.streamId == sid && c.srcClient) = true → c.tgt = v) →
      (acc = some v ∨ ∃ c ∈ cs, (c.streamId == sid && c.srcClient) = true) →
      scanConnsForSource sid acc cs = some v := by
  intro cs
  induction cs with
  | nil =>
    intro acc _ hd
    rcases hd with hd | ⟨c, hc, _⟩
    · exact hd
    · cases hc
  | cons c t ih =>
    intro acc hall hd
    by_cases hc : (c.streamId == sid && c.srcClient) = true
    · have htgt := hall c (List.mem_cons_self c t) hc
      simp only [scanConnsForSource, List.foldl_cons, hc, if_true]
      have := ih (some c.tgt)
        (fun c2 h2 => hall c2 (List.mem_cons_of_mem c h2))
        (Or.inl (by rw [htgt]))
      simpa [scanConnsForSource] using this
    · have hcf : (c.streamId == sid && c.srcClient) = false := by
        simpa using hc
      simp only [scanConnsForSource, List.foldl_cons, hcf, Bool.false_eq_true, if_false]
      refine ih acc (fun c2 h2 => hall c2 (List.mem_cons_of_mem c h2)) ?_
      rcases hd with hd | ⟨c2, hc2, hm2⟩
      · exact Or.inl hd
      · rcases List.mem_cons.mp hc2 with he | ht
        · rw [he] at hm2; exact absurd hm2 hc
        · exact Or.inr ⟨c2, ht, hm2⟩

/-- The whole source-relay scan (lines 370-377) yields `some v` when
every matching connection of every relay targets `v` and at least one
relay holds a matching connection. -/
theorem findSourceRelay_eq (sid v : Nat) :
    ∀ (rs : List RelayB) (acc : Option Nat),
      (∀ r ∈ rs, ∀ c ∈ r.conns, (c.streamId == sid && c.srcClient) = true → c.tgt = v) →
      (acc = some v ∨ ∃ r ∈ rs, ∃ c ∈ r.conns, (c.streamId == sid && c.srcClient) = true) →
      rs.foldl (fun acc r => scanConnsForSource sid acc r.conns) acc = some v := by
  intro rs
  induction rs with
  | nil =>
    intro acc _ hd
    rcases hd with hd | ⟨r, hr, _⟩
    · exact hd
    · cases hr
  | cons r t ih =>
    intro acc hall hd
    rw [List.foldl_cons]
    by_cases hex : ∃ c ∈ r.conns, (c.streamId == sid && c.srcClient) = true
    · have hacc : scanConnsForSource sid acc r.conns = some v :=
        scanConns_all_to sid v r.conns acc
          (hall r (List.mem_cons_self r t)) (Or.inr hex)
      exact ih _ (fun r2 h2 => hall r2 (List.mem_cons_of_mem r h2)) (Or.inl hacc)
    · have hnm : ∀ c ∈ r.conns, (c.streamId == sid && c.srcClient) = false := by
        intro c hcm
        by_contra hne
        exact hex ⟨c, hcm, by simpa using hne⟩
      rw [scanConns_no_match sid r.conns acc hnm]
      refine ih acc (fun r2 h2 => hall r2 (List.mem_cons_of_mem r h2)) ?_
      rcases hd with hd | ⟨r2, hr2, hc2⟩
      · exact Or.inl hd
      · rcases List.mem_cons.mp hr2 with he | ht
        · rw [he] at hc2; exact absurd hc2 hex
        · exact Or.inr ⟨r2, ht, hc2⟩

/-- The home-zone inner loop changes nothing when none of the relay's
connections makes it a receiver of the stream. -/
theorem scanHomeZoneConns_no (r : RelayB) (sid : Nat) :
    ∀ (cf : List Nat × Bool),
      (∀ c ∈ r.conns, (c.tgt == r.rid && c.streamId == sid) = false) →
      scanHomeZoneConns r sid cf = cf := by
  suffices haux : ∀ (cs : List ConnB) (cf : List Nat × Bool),
      (∀ c ∈ cs, (c.tgt == r.rid && c.streamId == sid) = false) →
      cs.foldl
        (fun cf c =>
          if c.tgt == r.rid && c.streamId == sid then (cf.1 ++ [r.rid], true) else cf)
        cf = cf by
    intro cf h
    exact haux r.conns cf h
  intro cs
  induction cs with
  | nil => intro cf _; rfl
  | cons c t ih =>
    intro cf h
    have hc := h c (List.mem_cons_self c t)
    simp only [List.foldl_cons, hc, Bool.false_eq_true, if_false]
    exact ih cf fun c2 h2 => h c2 (List.mem_cons_of_mem c h2)

/-- The home-zone scan (lines 390-407) changes nothing when no
non-overloaded relay of the home zone already receives the stream. -/
theorem scanHomeZone_no (sid : Nat) (zone : String) :
    ∀ (rs : List RelayB) (cf : List Nat × Bool),
      (∀ r ∈ rs, r.zone = zone → r.isOverloaded = false →
        ∀ c ∈ r.conns, (c.tgt == r.rid && c.streamId == sid) = false) →
      scanHomeZone rs zone sid cf = cf := by
  intro rs
  induction rs with
  | nil => intro cf _; rfl
  | cons r t ih =>
    intro cf h
    unfold scanHomeZone
    rw [List.foldl_cons]
    by_cases hzr : (r.zone == zone && !r.isOverloaded) = true
    · have hz : r.zone = zone := by
        have := (Bool.and_eq_true _ _).mp hzr
        exact beq_iff_eq.mp this.1
      have hnov : r.isOverloaded = false := by
        have := (Bool.and_eq_true _ _).mp hzr
        simpa using this.2
      rw [hzr]
      simp only [if_true]
      rw [scanHomeZoneConns_no r sid cf (h r (List.mem_cons_self r t) hz hnov)]
      have := ih cf fun r2 h2 => h r2 (List.mem_cons_of_mem r h2)
      simpa [scanHomeZone] using this
    · have hzf : (r.zone == zone && !r.isOverloaded) = false := by
        simpa using hzr
      rw [hzf]
      simp only [Bool.false_eq_true, if_false]
      have := ih cf fun r2 h2 => h r2 (List.mem_cons_of_mem r h2)
      simpa [scanHomeZone] using this

/-- Counterexample to C4: in the exact scenario of the claim — client C1
publishes stream 7 through non-overloaded relay R1 (rid 1, the only
client-source connection carrying 7), home relay R2 (rid 2) in a
different zone, no relay in R2's zone receiving 7 — `askSubscribe`
returns the two-element list `[1, 2]`, not `[1]`: the home relay is
appended as a fallback candidate. -/
theorem c4_counterexample :
    RelayB.isOverloaded ⟨1, "a", [⟨true, 1, 7⟩]⟩ = false ∧
    (⟨1, "a", [⟨true, 1, 7⟩]⟩ : RelayB).zone ≠ (⟨2, "b", []⟩ : RelayB).zone ∧
    askSubscribe [⟨1, "a", [⟨true, 1, 7⟩]⟩, ⟨2, "b", []⟩] ⟨2, "b", []⟩ 7 = [1, 2] ∧
    askSubscribe [⟨1, "a", [⟨true, 1, 7⟩]⟩, ⟨2, "b", []⟩] ⟨2, "b", []⟩ 7 ≠
      [(⟨1, "a", [⟨true, 1, 7⟩]⟩ : RelayB).rid] := by
  decide

/-- C4 as amended: in the scenario state (origin relay `o` carries the
only client-source connection for `sid`, is not overloaded, and no
non-overloaded relay in the subscriber's home zone already receives
`sid`), `askSubscribe` returns the two-element list `[o.rid, hr.rid]`:
the origin relay first — so the connection is established with the
origin relay — followed by the home relay as fallback. -/
theorem c4_askSubscribe_origin_first (rs : List RelayB) (hr o : RelayB) (sid : Nat)
    (homem : o ∈ rs)
    (hconn : ∃ c ∈ o.conns, c.srcClient = true ∧ c.streamId = sid ∧ c.tgt = o.rid)
    (honly : ∀ r ∈ rs, ∀ c ∈ r.conns, c.srcClient = true → c.streamId = sid → c.tgt = o.rid)
    (hfind : findRelay rs o.rid = some o)
    (hov : o.isOverloaded = false)
    (hzone : ∀ r ∈ rs, r.zone = hr.zone → r.isOverloaded = false →
      ∀ c ∈ r.conns, c.tgt = r.rid → c.streamId ≠ sid) :
    askSubscribe rs hr sid = [o.rid, hr.rid] := by
  have hsrc : findSourceRelay rs sid = some o.rid := by
    unfold findSourceRelay
    refine findSourceRelay_eq sid o.rid rs none ?_ ?_
    · intro r hrm c hcm hb
      rw [Bool.and_eq_true] at hb
      exact honly r hrm c hcm hb.2 (by simpa using hb.1)
    · obtain ⟨c, hcm, h1, h2, _⟩ := hconn
      refine Or.inr ⟨o, homem, c, hcm, ?_⟩
      rw [Bool.and_eq_true]
      exact ⟨by simpa using h2, h1⟩
  have hz2 : ∀ r ∈ rs, r.zone = hr.zone → r.isOverloaded = false →
      ∀ c ∈ r.conns, (c.tgt == r.rid && c.streamId == sid) = false := by
    intro r hrm hz hnov c hcm
    by_cases ht : c.tgt = r.rid
    · have := hzone r hrm hz hnov c hcm ht
      simp [ht, this]
    · simp [ht]
  simp only [askSubscribe, hsrc, hfind, hov, Bool.false_eq_true, if_false]
  rw [scanHomeZone_no sid hr.zone rs ([o.rid], false) hz2]
  rfl

/-- Witness for the amended C4 at the concrete two-relay scenario. -/
theorem c4_askSubscribe_origin_first_witness :
    askSubscribe [⟨1, "a", [⟨true, 1, 7⟩]⟩, ⟨2, "b", []⟩] ⟨2, "b", []⟩ 7 =
      [(⟨1, "a", [⟨true, 1, 7⟩]⟩ : RelayB).rid, (⟨2, "b", []⟩ : RelayB).rid] := by
  exact c4_askSubscribe_origin_first
    [⟨1, "a", [⟨true, 1, 7⟩]⟩, ⟨2, "b", []⟩] ⟨2, "b", []⟩ ⟨1, "a", [⟨true, 1, 7⟩]⟩ 7
    (by decide)
    ⟨⟨true, 1, 7⟩, by decide, by decide, by decide, by decide⟩
    (by decide)
    (by decide)
    (by decide)
    (by decide)

/-- Counterexample to C10 as stated: with a single connection-free relay
(rid 5) as its own home relay, no non-overloaded relay of the home zone
receives stream 9, yet `askSubscribe` returns `[]` — the home relay is
not appended, because the scan for a source relay finds none and the
call returns early. -/
theorem c10_counterexample :
    (∀ r ∈ [(⟨5, "h", []⟩ : RelayB)], r.zone = "h" → r.isOverloaded = false →
      ∀ c ∈ r.conns, ¬(c.tgt = r.rid ∧ c.streamId = 9)) ∧
    askSubscribe [⟨5, "h", []⟩] ⟨5, "h", []⟩ 9 = [] := by
  decide

/-- C10 as amended: whenever the scan finds a source relay for the
stream and no non-overloaded relay in the home zone already receives it,
the home relay is appended as the last candidate with no overload check
whatsoever; consequently there are states — origin relay overloaded,
home relay at capacity — where the returned list's first candidate is an
overloaded relay. -/
theorem c10_overloaded_fallback (rs : List RelayB) (hr : RelayB) (sid srid : Nat)
    (hsrc : findSourceRelay rs sid = some srid)
    (hzone : ∀ r ∈ rs, r.zone = hr.zone → r.isOverloaded = false →
      ∀ c ∈ r.conns, c.tgt = r.rid → c.streamId ≠ sid) :
    (∃ pre, askSubscribe rs hr sid = pre ++ [hr.rid]) ∧
    (∃ (rs2 : List RelayB) (hr2 : RelayB) (sid2 : Nat) (rest : List Nat),
      askSubscribe rs2 hr2 sid2 = hr2.rid :: rest ∧ hr2.isOverloaded = true) := by
  constructor
  · have hz2 : ∀ r ∈ rs, r.zone = hr.zone → r.isOverloaded = false →
        ∀ c ∈ r.conns, (c.tgt == r.rid && c.streamId == sid) = false := by
      intro r hrm hz hnov c hcm
      by_cases ht : c.tgt = r.rid
      · have := hzone r hrm hz hnov c hcm ht
        simp [ht, this]
      · simp [ht]
    refine ⟨(match findRelay rs srid with
      | some sr => if sr.isOverloaded then [] else [srid]
      | none => [srid]), ?_⟩
    simp only [askSubscribe, hsrc]
    cases hf : findRelay rs srid with
    | none =>
      simp only
      rw [scanHomeZone_no sid hr.zone rs ([srid], false) hz2]
      rfl
    | some sr =>
      simp only
      by_cases hovsr : sr.isOverloaded = true
      · simp only [hovsr, if_true]
        rw [scanHomeZone_no sid hr.zone rs ([], false) hz2]
        rfl
      · rw [Bool.not_eq_true] at hovsr
        simp only [hovsr, Bool.false_eq_true, if_false]
        rw [scanHomeZone_no sid hr.zone rs ([srid], false) hz2]
        rfl
  · refine ⟨[⟨1, "a", ⟨true, 1, 7⟩ :: List.replicate 7 ⟨false, 0, 0⟩⟩,
      ⟨2, "b", List.replicate 8 ⟨false, 0, 0⟩⟩],
      ⟨2, "b", List.replicate 8 ⟨false, 0, 0⟩⟩, 7, [], ?_, ?_⟩
    · decide
    · decide

/-- Witness for the amended C10 at the concrete overloaded-origin,
overloaded-home-relay state. -/
theorem c10_overloaded_fallback_witness :
    ∃ pre, askSubscribe
      [⟨1, "a", ⟨true, 1, 7⟩ :: List.replicate 7 ⟨false, 0, 0⟩⟩,
        ⟨2, "b", List.replicate 8 ⟨false, 0, 0⟩⟩]
      ⟨2, "b", List.replicate 8 ⟨false, 0, 0⟩⟩ 7 =
        pre ++ [(⟨2, "b", List.replicate 8 ⟨false, 0, 0⟩⟩ : RelayB).rid] := by
  exact (c10_overloaded_fallback
    [⟨1, "a", ⟨true, 1, 7⟩ :: List.replicate 7 ⟨false, 0, 0⟩⟩,
      ⟨2, "b", List.replicate 8 ⟨false, 0, 0⟩⟩]
    ⟨2, "b", List.replicate 8 ⟨false, 0, 0⟩⟩ 7 1
    (by decide) (by decide)).1

/-- C6: for every `subscribeStream(s)` call whose routing result is
empty, if `s` is still in the global live-stream set the client sets
`failed`, sleeps the fixed grace period and then shuts itself down; if
`s` is no longer in that set the client shuts down silently, without
setting `failed` and without the grace sleep. -/
theorem c6_subscribe_empty_route (rs : List RelayB) (streamsLive : List Nat)
    (hr : RelayB) (sid : Nat) (hempty : askSubscribe rs hr sid = []) :
    (sid ∈ streamsLive →
      subscribeStream rs streamsLive (some hr) sid =
        ⟨true, [.sleepFor GRACE_PERIOD, .shutdownSelf]⟩) ∧
    (sid ∉ streamsLive →
      subscribeStream rs streamsLive (some hr) sid = ⟨false, [.shutdownSelf]⟩) := by
  constructor
  · intro hin
    have hc : streamsLive.contains sid = true := by
      simpa using hin
    simp only [subscribeStream, hempty, hc, if_true]
  · intro hout
    have hc : streamsLive.contains sid = false := by
      simpa using hout
    simp only [subscribeStream, hempty, hc, Bool.false_eq_true, if_false]

/-- Witness for C6 at a concrete empty relay set, in both the
still-live and already-gone cases. -/
theorem c6_subscribe_empty_route_witness :
    subscribeStream [] [7] (some ⟨0, "z", []⟩) 7 =
      ⟨true, [.sleepFor GRACE_PERIOD, .shutdownSelf]⟩ ∧
    subscribeStream [] [] (some ⟨0, "z", []⟩) 7 = ⟨false, [.shutdownSelf]⟩ := by
  exact ⟨(c6_subscribe_empty_route [] [7] ⟨0, "z", []⟩ 7 (by decide)).1 (by decide),
    (c6_subscribe_empty_route [] [] ⟨0, "z", []⟩ 7 (by decide)).2 (by decide)⟩

/-- When the serve check of the source peer fails, `addStreamConnection`
changes nothing but the already-consumed connection id. -/
theorem addStream_fail (s : NetState) (src tgt sid : Nat)
    (h : ∀ ps, s.heap[src]? = some ps → getStreamOk ps sid = false) :
    addStreamConnection s src tgt sid =
      { s with nextConnectionId := s.nextConnectionId + 1 } := by
  cases hs : s.heap[src]? with
  | none =>
    cases ht : s.heap[tgt]? with
    | none => simp only [addStreamConnection, hs, ht]
    | some pt => simp only [addStreamConnection, hs, ht]
  | some ps =>
    cases ht : s.heap[tgt]? with
    | none => simp only [addStreamConnection, hs, ht]
    | some pt =>
      have hf := h ps hs
      simp only [addStreamConnection, hs, ht, hf, Bool.false_eq_true, if_false]

/-- Counterexample to C5: a Relay that is not receiving stream 7 at all
still passes the serve check (the upstream fetch is a TODO no-op in
`Relay.getStream`), and the connection is created anyway — the check
does not fail and the call does not abort when the relay lacks the
stream. -/
theorem c5_counterexample :
    getStreamOk ⟨"r1", .relay "z", true, []⟩ 7 = true ∧
    relayReceiving ⟨"r1", .relay "z", true, []⟩ 0 7 = false ∧
    (⟨0, 0, 1, 7⟩ : Conn) ∈ (addStreamConnection
      ⟨[⟨"r1", .relay "z", true, []⟩, ⟨"c1", .client none, true, []⟩],
        [1], [], 0⟩ 0 1 7).conns := by
  decide

/-- C5 as amended: `addStreamConnection` consults the serving (source)
peer's `getStream` check before creating the edge; when the consulted
peer is a Relay the check always succeeds, whether or not the relay is
receiving the stream (the miss branch is an unimplemented TODO); when
the consulted peer is a Client the check fails exactly on a published-
stream mismatch; and when the check fails the call aborts with no
connection recorded anywhere — only the connection id is consumed. -/
theorem c5_establish_check (s : NetState) (src tgt sid : Nat) (ps : PeerRec)
    (hs : s.heap[src]? = some ps) :
    (∀ z, ps.kind = .relay z → getStreamOk ps sid = true) ∧
    (∀ pub, ps.kind = .client pub → (getStreamOk ps sid = false ↔ pub ≠ some sid)) ∧
    (getStreamOk ps sid = false →
      addStreamConnection s src tgt sid =
        { s with nextConnectionId := s.nextConnectionId + 1 }) := by
  refine ⟨?_, ?_, ?_⟩
  · intro z hk
    simp [getStreamOk, hk]
  · intro pub hk
    simp [getStreamOk, hk]
  · intro hf
    refine addStream_fail s src tgt sid ?_
    intro ps2 hs2
    rw [hs] at hs2
    cases hs2
    exact hf

/-- Witness for the amended C5: a Relay source passes the check, a
Client source with a mismatched stream fails it, and the failed call
leaves everything but the allocator untouched. -/
theorem c5_establish_check_witness :
    getStreamOk ⟨"r1", .relay "z", true, []⟩ 9 = true ∧
    (getStreamOk ⟨"c1", .client (some 3), true, []⟩ 9 = false ↔
      (some 3 : Option Nat) ≠ some 9) ∧
    addStreamConnection
        ⟨[⟨"c1", .client (some 3), true, []⟩, ⟨"r1", .relay "z", true, []⟩],
          [0], [], 0⟩ 0 1 9 =
      { (⟨[⟨"c1", .client (some 3), true, []⟩, ⟨"r1", .relay "z", true, []⟩],
          [0], [], 0⟩ : NetState) with nextConnectionId := 0 + 1 } := by
  refine ⟨?_, ?_, ?_⟩
  · exact (c5_establish_check
      ⟨[⟨"r1", .relay "z", true, []⟩], [], [], 0⟩ 0 1 9 ⟨"r1", .relay "z", true, []⟩
      (by decide)).1 "z" (by decide)
  · exact (c5_establish_check
      ⟨[⟨"c1", .client (some 3), true, []⟩], [], [], 0⟩ 0 1 9
      ⟨"c1", .client (some 3), true, []⟩ (by decide)).2.1 (some 3) (by decide)
  · exact (c5_establish_check
      ⟨[⟨"c1", .client (some 3), true, []⟩, ⟨"r1", .relay "z", true, []⟩],
        [0], [], 0⟩ 0 1 9 ⟨"c1", .client (some 3), true, []⟩ (by decide)).2.2
      (by decide)

/-- C8: `Client.getStream(s)` raises an error exactly when `s` differs
from the client's published stream, resolves normally on a match, and
the error is never swallowed by the check itself: it propagates out of
`addStreamConnection`, aborting the call with no connection recorded. -/
theorem c8_client_stream_mismatch (nm : String) (running : Bool) (cs : List Conn)
    (pub : Option Nat) (sid : Nat) :
    (getStreamOk ⟨nm, .client pub, running, cs⟩ sid = false ↔ pub ≠ some sid) ∧
    (pub = some sid → getStreamOk ⟨nm, .client pub, running, cs⟩ sid = true) ∧
    (∀ (s : NetState) (src tgt : Nat),
      s.heap[src]? = some ⟨nm, .client pub, running, cs⟩ → pub ≠ some sid →
      addStreamConnection s src tgt sid =
        { s with nextConnectionId := s.nextConnectionId + 1 }) := by
  refine ⟨?_, ?_, ?_⟩
  · simp [getStreamOk]
  · intro h
    simp [getStreamOk, h]
  · intro s src tgt hs hne
    refine addStream_fail s src tgt sid ?_
    intro ps2 hs2
    rw [hs] at hs2
    cases hs2
    simp [getStreamOk, hne]

/-- Witness for C8 with a client publishing stream 3 asked to serve
stream 7. -/
theorem c8_client_stream_mismatch_witness :
    getStreamOk ⟨"c", .client (some 3), true, []⟩ 7 = false ∧
    addStreamConnection
        ⟨[⟨"c", .client (some 3), true, []⟩, ⟨"r", .relay "z", true, []⟩],
          [0], [], 0⟩ 0 1 7 =
      { (⟨[⟨"c", .client (some 3), true, []⟩, ⟨"r", .relay "z", true, []⟩],
          [0], [], 0⟩ : NetState) with nextConnectionId := 0 + 1 } := by
  constructor
  · exact (c8_client_stream_mismatch "c" true [] (some 3) 7).1.mpr (by decide)
  · exact (c8_client_stream_mismatch "c" true [] (some 3) 7).2.2
      ⟨[⟨"c", .client (some 3), true, []⟩, ⟨"r", .relay "z", true, []⟩], [0], [], 0⟩
      0 1 (by decide) (by decide)

theorem modifyPeer_conns (s : NetState) (pid : Nat) (f : PeerRec → PeerRec) :
    (modifyPeer s pid f).conns = s.conns := by
  unfold modifyPeer
  cases s.heap[pid]? <;> rfl

theorem modifyPeer_clients (s : NetState) (pid : Nat) (f : PeerRec → PeerRec) :
    (modifyPeer s pid f).clients = s.clients := by
  unfold modifyPeer
  cases s.heap[pid]? <;> rfl

theorem modifyPeer_nextId (s : NetState) (pid : Nat) (f : PeerRec → PeerRec) :
    (modifyPeer s pid f).nextConnectionId = s.nextConnectionId := by
  unfold modifyPeer
  cases s.heap[pid]? <;> rfl

theorem modifyPeer_heap_same {s : NetState} {pid : Nat} {p : PeerRec}
    (f : PeerRec → PeerRec) (hs : s.heap[pid]? = some p) :
    (modifyPeer s pid f).heap[pid]? = some (f p) := by
  unfold modifyPeer
  rw [hs]
  have hlt : pid < s.heap.length := (List.getElem?_eq_some_iff.mp hs).1
  exact List.getElem?_set_self hlt

theorem modifyPeer_heap_other {q pid : Nat} (s : NetState) (f : PeerRec → PeerRec)
    (h : q ≠ pid) : (modifyPeer s pid f).heap[q]? = s.heap[q]? := by
  unfold modifyPeer
  cases hs : s.heap[pid]? with
  | none => rfl
  | some p => exact List.getElem?_set_ne (Ne.symm h)

theorem modifyPeer_eq_of_none {s : NetState} {pid : Nat} (f : PeerRec → PeerRec)
    (h : s.heap[pid]? = none) : modifyPeer s pid f = s := by
  unfold modifyPeer
  rw [h]

theorem modifyPeer_heap_none {q pid : Nat} (s : NetState) (f : PeerRec → PeerRec)
    (h : s.heap[q]? = none) : (modifyPeer s pid f).heap[q]? = none := by
  by_cases hq : q = pid
  · subst hq
    rw [modifyPeer_eq_of_none f h]
    exact h
  · rw [modifyPeer_heap_other s f hq]
    exact h

theorem modifyPeer_field {s : NetState} {pid : Nat} (f : PeerRec → PeerRec)
    (g : PeerRec → Bool) (hf : ∀ p, g (f p) = g p) :
    ∀ q : Nat, ((modifyPeer s pid f).heap[q]?).map g = (s.heap[q]?).map g := by
  intro q
  cases hs : s.heap[pid]? with
  | none => rw [modifyPeer_eq_of_none f hs]
  | some p =>
    by_cases hq : q = pid
    · subst hq
      rw [modifyPeer_heap_same f hs, hs]
      simp [hf p]
    · rw [modifyPeer_heap_other s f hq]

theorem modifyPeer_name {s : NetState} {pid : Nat} (f : PeerRec → PeerRec)
    (hf : ∀ p, (f p).name = p.name) :
    ∀ q : Nat, ((modifyPeer s pid f).heap[q]?).map PeerRec.name =
      (s.heap[q]?).map PeerRec.name := by
  intro q
  cases hs : s.heap[pid]? with
  | none => rw [modifyPeer_eq_of_none f hs]
  | some p =>
    by_cases hq : q = pid
    · subst hq
      rw [modifyPeer_heap_same f hs, hs]
      simp [hf p]
    · rw [modifyPeer_heap_other s f hq]

theorem insertKeyed_fresh {c : Conn} {l : List Conn} (h : ∀ c2 ∈ l, c2.id ≠ c.id) :
    insertKeyed c l = l ++ [c] := by
  unfold insertKeyed
  have hany : l.any (fun c2 => c2.id == c.id) = false := by
    rw [List.any_eq_false]
    intro x hx
    simpa using h x hx
  rw [hany]
  simp

theorem insertKeyed_append_self {c : Conn} {l : List Conn}
    (h : ∀ c2 ∈ l, c2.id ≠ c.id) : insertKeyed c (l ++ [c]) = l ++ [c] := by
  unfold insertKeyed
  have hany : (l ++ [c]).any (fun c2 => c2.id == c.id) = true := by
    rw [List.any_eq_true]
    exact ⟨c, List.mem_append_right _ (List.mem_singleton.mpr rfl), by simp⟩
  rw [hany]
  simp only [if_true, List.map_append]
  congr 1
  · have hmap : l.map (fun c2 => if c2.id == c.id then c else c2) =
        l.map (fun c2 => c2) := by
      refine List.map_congr_left ?_
      intro x hx
      simp [h x hx]
    rw [hmap, List.map_id']
  · simp

theorem mem_removeKeyed {i : Nat} {l : List Conn} {c : Conn} :
    c ∈ removeKeyed i l ↔ c ∈ l ∧ c.id ≠ i := by
  unfold removeKeyed
  rw [List.mem_filter]
  simp

theorem removeKeyed_of_no_match {i : Nat} {l : List Conn}
    (h : ∀ c ∈ l, c.id ≠ i) : removeKeyed i l = l := by
  unfold removeKeyed
  rw [List.filter_eq_self]
  intro c hc
  simpa using h c hc

theorem conn_id_unique {l : List Conn} (hp : l.Pairwise (fun a b => a.id ≠ b.id))
    {a b : Conn} (ha : a ∈ l) (hb : b ∈ l) (hid : a.id = b.id) : a = b := by
  induction l with
  | nil => cases ha
  | cons h t ih =>
    rcases List.pairwise_cons.mp hp with ⟨hh, ht⟩
    rcases List.mem_cons.mp ha with hae | hat
    · rcases List.mem_cons.mp hb with hbe | hbt
      · rw [hae, hbe]
      · exact absurd (hae ▸ hid) (hh b hbt)
    · rcases List.mem_cons.mp hb with hbe | hbt
      · exact absurd (hbe ▸ hid).symm (hh a hat)
      · exact ih ht hat hbt

theorem heap_append_lookup {l : List PeerRec} {x : PeerRec} {q : Nat} {p : PeerRec}
    (h : (l ++ [x])[q]? = some p) : l[q]? = some p ∨ (q = l.length ∧ p = x) := by
  by_cases hq : q < l.length
  · left
    rw [← List.getElem?_append_left hq]
    exact h
  · by_cases he : q = l.length
    · right
      subst he
      rw [List.getElem?_concat_length] at h
      exact ⟨rfl, (Option.some_injective _ h).symm⟩
    · exfalso
      have hlen : (l ++ [x]).length ≤ q := by
        rw [List.length_append, List.length_singleton]
        omega
      rw [List.getElem?_eq_none hlen] at h
      cases h

theorem addStream_succ (s : NetState) (src tgt sid : Nat) (ps pt : PeerRec)
    (hs : s.heap[src]? = some ps) (ht : s.heap[tgt]? = some pt)
    (hok : getStreamOk ps sid = true) (hr1 : ps.running = true)
    (hr2 : pt.running = true) :
    addStreamConnection s src tgt sid =
      modifyPeer (modifyPeer
        { heap := s.heap, clients := s.clients,
          conns := insertKeyed ⟨s.nextConnectionId, src, tgt, sid⟩ s.conns,
          nextConnectionId := s.nextConnectionId + 1 }
        src (connInsert ⟨s.nextConnectionId, src, tgt, sid⟩))
        tgt (connInsert ⟨s.nextConnectionId, src, tgt, sid⟩) := by
  simp only [addStreamConnection, hs, ht, hok, hr1, hr2, Bool.and_self, if_true]

theorem estab_lookup (s : NetState) (src tgt sid : Nat) {ps pt : PeerRec}
    (hs : s.heap[src]? = some ps) (ht : s.heap[tgt]? = some pt)
    (hfreshP : ∀ (q : Nat) (pq : PeerRec), s.heap[q]? = some pq →
      ∀ c2 ∈ pq.conns, c2.id ≠ s.nextConnectionId) :
    ∀ (q : Nat) (pq : PeerRec), s.heap[q]? = some pq →
      (modifyPeer (modifyPeer
        { heap := s.heap, clients := s.clients,
          conns := insertKeyed ⟨s.nextConnectionId, src, tgt, sid⟩ s.conns,
          nextConnectionId := s.nextConnectionId + 1 }
        src (connInsert ⟨s.nextConnectionId, src, tgt, sid⟩))
        tgt (connInsert ⟨s.nextConnectionId, src, tgt, sid⟩)).heap[q]? =
      some (if q = src ∨ q = tgt then
        { pq with conns := pq.conns ++ [⟨s.nextConnectionId, src, tgt, sid⟩] }
      else pq) := by
  intro q pq hq
  by_cases hqt : q = tgt
  · subst hqt
    have hpq : pq = pt := by
      rw [hq] at ht
      exact Option.some_injective _ ht
    subst hpq
    by_cases hqs : q = src
    · subst hqs
      have hps : pq = ps := by
        rw [hq] at hs
        exact Option.some_injective _ hs
      subst hps
      have hmid : (modifyPeer
          { heap := s.heap, clients := s.clients,
            conns := insertKeyed ⟨s.nextConnectionId, q, q, sid⟩ s.conns,
            nextConnectionId := s.nextConnectionId + 1 }
          q (connInsert ⟨s.nextConnectionId, q, q, sid⟩)).heap[q]? =
          some (connInsert ⟨s.nextConnectionId, q, q, sid⟩ pq) :=
        modifyPeer_heap_same _ hq
      rw [modifyPeer_heap_same _ hmid]
      have hfr := hfreshP q pq hq
      have h1 : connInsert ⟨s.nextConnectionId, q, q, sid⟩ pq =
          { pq with conns := pq.conns ++ [⟨s.nextConnectionId, q, q, sid⟩] } := by
        unfold connInsert
        rw [insertKeyed_fresh hfr]
      rw [h1]
      have h2 : connInsert ⟨s.nextConnectionId, q, q, sid⟩
          { pq with conns := pq.conns ++ [⟨s.nextConnectionId, q, q, sid⟩] } =
          { pq with conns := pq.conns ++ [⟨s.nextConnectionId, q, q, sid⟩] } := by
        unfold connInsert
        rw [insertKeyed_append_self hfr]
      rw [h2, if_pos (Or.inl rfl)]
    · have hmid : (modifyPeer
          { heap := s.heap, clients := s.clients,
            conns := insertKeyed ⟨s.nextConnectionId, src, q, sid⟩ s.conns,
            nextConnectionId := s.nextConnectionId + 1 }
          src (connInsert ⟨s.nextConnectionId, src, q, sid⟩)).heap[q]? =
          s.heap[q]? :=
        modifyPeer_heap_other _ _ hqs
      have hmid2 : (modifyPeer
          { heap := s.heap, clients := s.clients,
            conns := insertKeyed ⟨s.nextConnectionId, src, q, sid⟩ s.conns,
            nextConnectionId := s.nextConnectionId + 1 }
          src (connInsert ⟨s.nextConnectionId, src, q, sid⟩)).heap[q]? = some pq := by
        rw [hmid]; exact hq
      rw [modifyPeer_heap_same _ hmid2]
      have hfr := hfreshP q pq hq
      have h1 : connInsert ⟨s.nextConnectionId, src, q, sid⟩ pq =
          { pq with conns := pq.conns ++ [⟨s.nextConnectionId, src, q, sid⟩] } := by
        unfold connInsert
        rw [insertKeyed_fresh hfr]
      rw [h1, if_pos (Or.inr rfl)]
  · rw [modifyPeer_heap_other _ _ hqt]
    by_cases hqs : q = src
    · subst hqs
      have hps : pq = ps := by
        rw [hq] at hs
        exact Option.some_injective _ hs
      subst hps
      have hqA : (NetState.mk s.heap s.clients
          (insertKeyed ⟨s.nextConnectionId, q, tgt, sid⟩ s.conns)
          (s.nextConnectionId + 1)).heap[q]? = some pq := hq
      rw [modifyPeer_heap_same _ hqA]
      have hfr := hfreshP q pq hq
      have h1 : connInsert ⟨s.nextConnectionId, q, tgt, sid⟩ pq =
          { pq with conns := pq.conns ++ [⟨s.nextConnectionId, q, tgt, sid⟩] } := by
        unfold connInsert
        rw [insertKeyed_fresh hfr]
      rw [h1, if_pos (Or.inl rfl)]
    · rw [modifyPeer_heap_other _ _ hqs]
      rw [if_neg (by push_neg; exact ⟨hqs, hqt⟩)]
      exact hq

theorem estab_lookup_none (s : NetState) (src tgt sid : Nat) {q : Nat}
    (hq : s.heap[q]? = none) :
    (modifyPeer (modifyPeer
      { heap := s.heap, clients := s.clients,
        conns := insertKeyed ⟨s.nextConnectionId, src, tgt, sid⟩ s.conns,
        nextConnectionId := s.nextConnectionId + 1 }
      src (connInsert ⟨s.nextConnectionId, src, tgt, sid⟩))
      tgt (connInsert ⟨s.nextConnectionId, src, tgt, sid⟩)).heap[q]? = none := by
  have h0 : (NetState.mk s.heap s.clients
      (insertKeyed ⟨s.nextConnectionId, src, tgt, sid⟩ s.conns)
      (s.nextConnectionId + 1)).heap[q]? = none := hq
  exact modifyPeer_heap_none _ _ (modifyPeer_heap_none _ _ h0)

theorem netInv_estab (s : NetState) (src tgt sid : Nat) (h : NetInv s) :
    NetInv (addStreamConnection s src tgt sid) := by
  obtain ⟨h1, h2, h3⟩ := h
  have hbump : NetInv { s with nextConnectionId := s.nextConnectionId + 1 } := by
    refine ⟨?_, h2, h3⟩
    intro c hc
    obtain ⟨hid, hA, hB⟩ := h1 c hc
    exact ⟨Nat.lt_succ_of_lt hid, hA, hB⟩
  cases hs : s.heap[src]? with
  | none =>
    cases ht : s.heap[tgt]? with
    | none => simpa only [addStreamConnection, hs, ht] using hbump
    | some pt => simpa only [addStreamConnection, hs, ht] using hbump
  | some ps =>
    cases ht : s.heap[tgt]? with
    | none => simpa only [addStreamConnection, hs, ht] using hbump
    | some pt =>
      by_cases hok : getStreamOk ps sid = true
      case neg =>
        have hokf : getStreamOk ps sid = false := by
          simpa using hok
        simpa only [addStreamConnection, hs, ht, hokf, Bool.false_eq_true,
          if_false] using hbump
      case pos =>
      by_cases hr1 : ps.running = true
      case neg =>
        have hrf : (ps.running && pt.running) = false := by
          rw [Bool.not_eq_true] at hr1
          simp [hr1]
        simpa only [addStreamConnection, hs, ht, hok, hrf, Bool.false_eq_true,
          if_false, if_true] using hbump
      case pos =>
      by_cases hr2 : pt.running = true
      case neg =>
        have hrf : (ps.running && pt.running) = false := by
          rw [Bool.not_eq_true] at hr2
          simp [hr2]
        simpa only [addStreamConnection, hs, ht, hok, hrf, Bool.false_eq_true,
          if_false, if_true] using hbump
      case pos =>
      rw [addStream_succ s src tgt sid ps pt hs ht hok hr1 hr2]
      have hfreshG : ∀ c2 ∈ s.conns, c2.id ≠ s.nextConnectionId := by
        intro c2 hc2
        have := (h1 c2 hc2).1
        omega
      have hfreshP : ∀ (q : Nat) (pq : PeerRec), s.heap[q]? = some pq →
          ∀ c2 ∈ pq.conns, c2.id ≠ s.nextConnectionId := by
        intro q pq hq c2 hc2
        exact hfreshG c2 (h2 q pq hq c2 hc2).1
      have hlook := estab_lookup s src tgt sid hs ht hfreshP
      have hconns : (modifyPeer (modifyPeer
          { heap := s.heap, clients := s.clients,
            conns := insertKeyed ⟨s.nextConnectionId, src, tgt, sid⟩ s.conns,
            nextConnectionId := s.nextConnectionId + 1 }
          src (connInsert ⟨s.nextConnectionId, src, tgt, sid⟩))
          tgt (connInsert ⟨s.nextConnectionId, src, tgt, sid⟩)).conns =
          s.conns ++ [⟨s.nextConnectionId, src, tgt, sid⟩] := by
        rw [modifyPeer_conns, modifyPeer_conns]
        exact insertKeyed_fresh hfreshG
      have hnid : (modifyPeer (modifyPeer
          { heap := s.heap, clients := s.clients,
            conns := insertKeyed ⟨s.nextConnectionId, src, tgt, sid⟩ s.conns,
            nextConnectionId := s.nextConnectionId + 1 }
          src (connInsert ⟨s.nextConnectionId, src, tgt, sid⟩))
          tgt (connInsert ⟨s.nextConnectionId, src, tgt, sid⟩)).nextConnectionId =
          s.nextConnectionId + 1 := by
        rw [modifyPeer_nextId, modifyPeer_nextId]
      refine ⟨?_, ?_, ?_⟩
      · intro c hc
        rw [hconns] at hc
        rcases List.mem_append.mp hc with hold | hnew
        · obtain ⟨hid, ⟨ps', hs', hm'⟩, ⟨pt', ht', hm2'⟩⟩ := h1 c hold
          refine ⟨by rw [hnid]; omega, ?_, ?_⟩
          · refine ⟨_, hlook c.source ps' hs', ?_⟩
            by_cases hcond : c.source = src ∨ c.source = tgt
            · rw [if_pos hcond]
              exact List.mem_append_left _ hm'
            · rw [if_neg hcond]
              exact hm'
          · refine ⟨_, hlook c.target pt' ht', ?_⟩
            by_cases hcond : c.target = src ∨ c.target = tgt
            · rw [if_pos hcond]
              exact List.mem_append_left _ hm2'
            · rw [if_neg hcond]
              exact hm2'
        · rw [List.mem_singleton.mp hnew]
          refine ⟨by
            rw [hnid]
            show s.nextConnectionId < s.nextConnectionId + 1
            omega, ?_, ?_⟩
          · refine ⟨_, hlook src ps hs, ?_⟩
            rw [if_pos (Or.inl rfl)]
            exact List.mem_append_right _ (List.mem_singleton.mpr rfl)
          · refine ⟨_, hlook tgt pt ht, ?_⟩
            rw [if_pos (Or.inr rfl)]
            exact List.mem_append_right _ (List.mem_singleton.mpr rfl)
      · intro q p' hq' c hcp
        cases hsq : s.heap[q]? with
        | none =>
          rw [estab_lookup_none s src tgt sid hsq] at hq'
          cases hq'
        | some pq =>
          rw [hlook q pq hsq] at hq'
          have hp' := Option.some_injective _ hq'
          by_cases hcond : q = src ∨ q = tgt
          · rw [if_pos hcond] at hp'
            rw [← hp'] at hcp
            rcases List.mem_append.mp hcp with hold | hnew
            · obtain ⟨hg, hside⟩ := h2 q pq hsq c hold
              refine ⟨?_, hside⟩
              rw [hconns]
              exact List.mem_append_left _ hg
            · rw [List.mem_singleton.mp hnew]
              refine ⟨?_, ?_⟩
              · rw [hconns]
                exact List.mem_append_right _ (List.mem_singleton.mpr rfl)
              · rcases hcond with hcs | hct
                · exact Or.inl hcs.symm
                · exact Or.inr hct.symm
          · rw [if_neg hcond] at hp'
            rw [← hp'] at hcp
            obtain ⟨hg, hside⟩ := h2 q pq hsq c hcp
            refine ⟨?_, hside⟩
            rw [hconns]
            exact List.mem_append_left _ hg
      · rw [hconns]
        rw [List.pairwise_append]
        refine ⟨h3, List.pairwise_singleton _ _, ?_⟩
        intro a ha b hb
        rw [List.mem_singleton.mp hb]
        exact hfreshG a ha

theorem removeKeyed_idem (i : Nat) (l : List Conn) :
    removeKeyed i (removeKeyed i l) = removeKeyed i l :=
  removeKeyed_of_no_match (fun c hc => (mem_removeKeyed.mp hc).2)

theorem connRemove_idem (i : Nat) (p : PeerRec) :
    connRemove i (connRemove i p) = connRemove i p := by
  unfold connRemove
  simp only [removeKeyed_idem]

theorem removeConn_conns (s : NetState) (c : Conn) :
    (removeConnEverywhere s c).conns = removeKeyed c.id s.conns := by
  unfold removeConnEverywhere
  simp only [modifyPeer_conns]

theorem removeConn_clients (s : NetState) (c : Conn) :
    (removeConnEverywhere s c).clients = s.clients := by
  unfold removeConnEverywhere
  simp only [modifyPeer_clients]

theorem removeConn_nextId (s : NetState) (c : Conn) :
    (removeConnEverywhere s c).nextConnectionId = s.nextConnectionId := by
  unfold removeConnEverywhere
  simp only [modifyPeer_nextId]

theorem removeConn_lookup (s : NetState) (c : Conn) :
    ∀ (q : Nat) (pq : PeerRec), s.heap[q]? = some pq →
      (removeConnEverywhere s c).heap[q]? =
        some (if q = c.source ∨ q = c.target then connRemove c.id pq else pq) := by
  intro q pq hq
  show (modifyPeer (modifyPeer s c.source (connRemove c.id)) c.target
      (connRemove c.id)).heap[q]? = _
  by_cases hqt : q = c.target
  · by_cases hqs : q = c.source
    · have hqcs : s.heap[c.source]? = some pq := hqs ▸ hq
      have hmid2 : (modifyPeer s c.source (connRemove c.id)).heap[c.target]? =
          some (connRemove c.id pq) := by
        rw [← hqt, hqs]
        exact modifyPeer_heap_same _ hqcs
      have hfin : (modifyPeer (modifyPeer s c.source (connRemove c.id)) c.target
          (connRemove c.id)).heap[q]? =
          some (connRemove c.id (connRemove c.id pq)) := by
        rw [hqt]
        exact modifyPeer_heap_same _ hmid2
      rw [hfin, connRemove_idem, if_pos (Or.inl hqs)]
    · have hmid2 : (modifyPeer s c.source (connRemove c.id)).heap[c.target]? =
          some pq := by
        rw [← hqt, modifyPeer_heap_other _ _ hqs]
        exact hq
      have hfin : (modifyPeer (modifyPeer s c.source (connRemove c.id)) c.target
          (connRemove c.id)).heap[q]? = some (connRemove c.id pq) := by
        rw [hqt]
        exact modifyPeer_heap_same _ hmid2
      rw [hfin, if_pos (Or.inr hqt)]
  · rw [modifyPeer_heap_other _ _ hqt]
    by_cases hqs : q = c.source
    · have hqcs : s.heap[c.source]? = some pq := hqs ▸ hq
      have hmid : (modifyPeer s c.source (connRemove c.id)).heap[q]? =
          some (connRemove c.id pq) := by
        rw [hqs]
        exact modifyPeer_heap_same _ hqcs
      rw [hmid, if_pos (Or.inl hqs)]
    · rw [modifyPeer_heap_other _ _ hqs, if_neg (by push_neg; exact ⟨hqs, hqt⟩)]
      exact hq

theorem removeConn_lookup_none (s : NetState) (c : Conn) {q : Nat}
    (hq : s.heap[q]? = none) : (removeConnEverywhere s c).heap[q]? = none := by
  show (modifyPeer (modifyPeer s c.source (connRemove c.id)) c.target
      (connRemove c.id)).heap[q]? = none
  exact modifyPeer_heap_none _ _ (modifyPeer_heap_none _ _ hq)

theorem removeConn_running (s : NetState) (c : Conn) :
    ∀ q : Nat, ((removeConnEverywhere s c).heap[q]?).map PeerRec.running =
      (s.heap[q]?).map PeerRec.running := by
  intro q
  show ((modifyPeer (modifyPeer s c.source (connRemove c.id)) c.target
      (connRemove c.id)).heap[q]?).map PeerRec.running = _
  rw [modifyPeer_field (connRemove c.id) PeerRec.running (fun p => rfl),
    modifyPeer_field (connRemove c.id) PeerRec.running (fun p => rfl)]

theorem netInv_removeConn (s : NetState) (c : Conn) (h : NetInv s)
    (hid : ∀ c2 ∈ s.conns, c2.id = c.id → c2 = c) :
    NetInv (removeConnEverywhere s c) := by
  obtain ⟨h1, h2, h3⟩ := h
  refine ⟨?_, ?_, ?_⟩
  · intro c' hc'
    rw [removeConn_conns] at hc'
    obtain ⟨hmem, hne⟩ := mem_removeKeyed.mp hc'
    obtain ⟨hidlt, ⟨ps', hs', hm'⟩, ⟨pt', ht', hm2'⟩⟩ := h1 c' hmem
    refine ⟨by rw [removeConn_nextId]; exact hidlt, ?_, ?_⟩
    · refine ⟨_, removeConn_lookup s c c'.source ps' hs', ?_⟩
      by_cases hcond : c'.source = c.source ∨ c'.source = c.target
      · rw [if_pos hcond]
        show c' ∈ removeKeyed c.id ps'.conns
        exact mem_removeKeyed.mpr ⟨hm', hne⟩
      · rw [if_neg hcond]
        exact hm'
    · refine ⟨_, removeConn_lookup s c c'.target pt' ht', ?_⟩
      by_cases hcond : c'.target = c.source ∨ c'.target = c.target
      · rw [if_pos hcond]
        show c' ∈ removeKeyed c.id pt'.conns
        exact mem_removeKeyed.mpr ⟨hm2', hne⟩
      · rw [if_neg hcond]
        exact hm2'
  · intro q p' hq' c'' hc''
    cases hsq : s.heap[q]? with
    | none =>
      rw [removeConn_lookup_none s c hsq] at hq'
      cases hq'
    | some pq =>
      rw [removeConn_lookup s c q pq hsq] at hq'
      have hp' := Option.some_injective _ hq'
      by_cases hcond : q = c.source ∨ q = c.target
      · rw [if_pos hcond] at hp'
        rw [← hp'] at hc''
        have hc2 : c'' ∈ removeKeyed c.id pq.conns := hc''
        obtain ⟨hmem, hne⟩ := mem_removeKeyed.mp hc2
        obtain ⟨hg, hside⟩ := h2 q pq hsq c'' hmem
        refine ⟨?_, hside⟩
        rw [removeConn_conns]
        exact mem_removeKeyed.mpr ⟨hg, hne⟩
      · rw [if_neg hcond] at hp'
        rw [← hp'] at hc''
        obtain ⟨hg, hside⟩ := h2 q pq hsq c'' hc''
        have hne : c''.id ≠ c.id := by
          intro heq
          have hcc := hid c'' hg heq
          rw [hcc] at hside
          rcases hside with hcs | hct
          · exact hcond (Or.inl hcs.symm)
          · exact hcond (Or.inr hct.symm)
        refine ⟨?_, hside⟩
        rw [removeConn_conns]
        exact mem_removeKeyed.mpr ⟨hg, hne⟩
  · rw [removeConn_conns]
    exact List.Pairwise.sublist (List.filter_sublist _) h3

theorem fold_remove_conns_subset (cs : List Conn) :
    ∀ (s : NetState) (c2 : Conn),
      c2 ∈ (cs.foldl removeConnEverywhere s).conns → c2 ∈ s.conns := by
  induction cs with
  | nil => intro s c2 h; exact h
  | cons c t ih =>
    intro s c2 h
    rw [List.foldl_cons] at h
    have hmem := ih (removeConnEverywhere s c) c2 h
    rw [removeConn_conns] at hmem
    exact (mem_removeKeyed.mp hmem).1

theorem fold_remove_removes (cs : List Conn) :
    ∀ (s : NetState) (c : Conn), c ∈ cs →
      ∀ c2 ∈ (cs.foldl removeConnEverywhere s).conns, c2.id ≠ c.id := by
  induction cs with
  | nil => intro s c h; cases h
  | cons c0 t ih =>
    intro s c hc c2 h2
    rw [List.foldl_cons] at h2
    rcases List.mem_cons.mp hc with he | ht
    · have hmem := fold_remove_conns_subset t (removeConnEverywhere s c0) c2 h2
      rw [removeConn_conns] at hmem
      rw [he]
      exact (mem_removeKeyed.mp hmem).2
    · exact ih (removeConnEverywhere s c0) c ht c2 h2

theorem fold_remove_netInv (cs : List Conn) :
    ∀ (s : NetState), NetInv s →
      (∀ c ∈ cs, ∀ c2 ∈ s.conns, c2.id = c.id → c2 = c) →
      NetInv (cs.foldl removeConnEverywhere s) := by
  induction cs with
  | nil => intro s h _; exact h
  | cons c t ih =>
    intro s h hid
    rw [List.foldl_cons]
    refine ih (removeConnEverywhere s c)
      (netInv_removeConn s c h (hid c (List.mem_cons_self c t))) ?_
    intro c' hc' c2 h2 hide
    have h2' : c2 ∈ s.conns := by
      rw [removeConn_conns] at h2
      exact (mem_removeKeyed.mp h2).1
    exact hid c' (List.mem_cons_of_mem c hc') c2 h2' hide

theorem fold_remove_clients (cs : List Conn) :
    ∀ s : NetState, (cs.foldl removeConnEverywhere s).clients = s.clients := by
  induction cs with
  | nil => intro s; rfl
  | cons c t ih =>
    intro s
    rw [List.foldl_cons, ih, removeConn_clients]

theorem fold_remove_running (cs : List Conn) :
    ∀ (s : NetState) (q : Nat),
      ((cs.foldl removeConnEverywhere s).heap[q]?).map PeerRec.running =
        (s.heap[q]?).map PeerRec.running := by
  induction cs with
  | nil => intro s q; rfl
  | cons c t ih =>
    intro s q
    rw [List.foldl_cons, ih, removeConn_running]

theorem netInv_modifyPeer (s : NetState) (pid : Nat) (f : PeerRec → PeerRec)
    (hf : ∀ p, (f p).conns = p.conns) (h : NetInv s) :
    NetInv (modifyPeer s pid f) := by
  cases hs : s.heap[pid]? with
  | none => rw [modifyPeer_eq_of_none f hs]; exact h
  | some p =>
    obtain ⟨h1, h2, h3⟩ := h
    refine ⟨?_, ?_, ?_⟩
    · intro c hc
      rw [modifyPeer_conns] at hc
      obtain ⟨hid, ⟨ps', hs', hm'⟩, ⟨pt', ht', hm2'⟩⟩ := h1 c hc
      refine ⟨by rw [modifyPeer_nextId]; exact hid, ?_, ?_⟩
      · by_cases hq : c.source = pid
        · refine ⟨f p, by rw [hq]; exact modifyPeer_heap_same f hs, ?_⟩
          rw [hf p]
          have hpe : ps' = p := by
            rw [hq] at hs'
            rw [hs'] at hs
            exact Option.some_injective _ hs
          rw [← hpe]
          exact hm'
        · exact ⟨ps', by rw [modifyPeer_heap_other s f hq]; exact hs', hm'⟩
      · by_cases hq : c.target = pid
        · refine ⟨f p, by rw [hq]; exact modifyPeer_heap_same f hs, ?_⟩
          rw [hf p]
          have hpe : pt' = p := by
            rw [hq] at ht'
            rw [ht'] at hs
            exact Option.some_injective _ hs
          rw [← hpe]
          exact hm2'
        · exact ⟨pt', by rw [modifyPeer_heap_other s f hq]; exact ht', hm2'⟩
    · intro q p' hq' c hc
      by_cases hq : q = pid
      · rw [hq, modifyPeer_heap_same f hs] at hq'
        have hp' := Option.some_injective _ hq'
        rw [← hp', hf p] at hc
        obtain ⟨hg, hside⟩ := h2 pid p hs c hc
        rw [hq]
        exact ⟨by rw [modifyPeer_conns]; exact hg, hside⟩
      · rw [modifyPeer_heap_other s f hq] at hq'
        obtain ⟨hg, hside⟩ := h2 q p' hq' c hc
        exact ⟨by rw [modifyPeer_conns]; exact hg, hside⟩
    · rw [modifyPeer_conns]
      exact h3

theorem shutdown_eq (s : NetState) (pid : Nat) (p : PeerRec)
    (hp : s.heap[pid]? = some p) :
    shutdown s pid = p.conns.foldl removeConnEverywhere
      { modifyPeer s pid (fun q => { q with running := false }) with
        clients :=
          (modifyPeer s pid (fun q => { q with running := false })).clients.eraseP
            (clientNameMatches
              (modifyPeer s pid (fun q => { q with running := false })).heap p.name) } := by
  simp only [shutdown, hp]

theorem netInv_clients_update (s : NetState) (x : List Nat) (h : NetInv s) :
    NetInv { s with clients := x } :=
  h

theorem netInv_shutdown (s : NetState) (pid : Nat) (h : NetInv s) :
    NetInv (shutdown s pid) := by
  cases hp : s.heap[pid]? with
  | none => simp only [shutdown, hp]; exact h
  | some p =>
    rw [shutdown_eq s pid p hp]
    have hA : NetInv (modifyPeer s pid (fun q => { q with running := false })) :=
      netInv_modifyPeer s pid _ (fun q => rfl) h
    have hB : NetInv
        { modifyPeer s pid (fun q => { q with running := false }) with
          clients :=
            (modifyPeer s pid (fun q => { q with running := false })).clients.eraseP
              (clientNameMatches
                (modifyPeer s pid (fun q => { q with running := false })).heap p.name) } :=
      netInv_clients_update _ _ hA
    refine fold_remove_netInv p.conns _ hB ?_
    intro c hc c2 hc2 hide
    have hc2' : c2 ∈ (modifyPeer s pid (fun q => { q with running := false })).conns := hc2
    rw [modifyPeer_conns] at hc2'
    have hcg : c ∈ s.conns := (h.2.1 pid p hp c hc).1
    exact conn_id_unique h.2.2 hc2' hcg hide

theorem netInv_spawn (s : NetState) (nm : String) (pub : Option Nat) (h : NetInv s) :
    NetInv (spawnClient s nm pub) := by
  obtain ⟨h1, h2, h3⟩ := h
  refine ⟨?_, ?_, h3⟩
  · intro c hc
    obtain ⟨hid, ⟨ps', hs', hm'⟩, ⟨pt', ht', hm2'⟩⟩ := h1 c hc
    refine ⟨hid, ⟨ps', ?_, hm'⟩, ⟨pt', ?_, hm2'⟩⟩
    · show (s.heap ++ [⟨nm, .client pub, true, []⟩])[c.source]? = some ps'
      rw [List.getElem?_append_left (List.getElem?_eq_some_iff.mp hs').1]
      exact hs'
    · show (s.heap ++ [⟨nm, .client pub, true, []⟩])[c.target]? = some pt'
      rw [List.getElem?_append_left (List.getElem?_eq_some_iff.mp ht').1]
      exact ht'
  · intro q p' hq' c hc
    have hq2 : (s.heap ++ [⟨nm, .client pub, true, []⟩])[q]? = some p' := hq'
    rcases heap_append_lookup hq2 with hold | ⟨_, hnew⟩
    · exact h2 q p' hold c hc
    · rw [hnew] at hc
      cases hc

theorem netInv_init {s : NetState} (h : InitOk s) : NetInv s := by
  obtain ⟨hc, _, hp⟩ := h
  refine ⟨?_, ?_, ?_⟩
  · intro c hcm
    rw [hc] at hcm
    cases hcm
  · intro q p hq c hcm
    rw [hp p (List.getElem?_mem hq)] at hcm
    cases hcm
  · rw [hc]
    exact List.Pairwise.nil

theorem netInv_step {s s' : NetState} (hs : NetStep s s') (h : NetInv s) : NetInv s' := by
  cases hs with
  | estab src tgt sid => exact netInv_estab s src tgt sid h
  | shut pid => exact netInv_shutdown s pid h
  | spawn nm pub => exact netInv_spawn s nm pub h

theorem netInv_reachable {s0 s : NetState} (h0 : InitOk s0) (hr : Reachable s0 s) :
    NetInv s := by
  unfold Reachable at hr
  induction hr with
  | refl => exact netInv_init h0
  | tail _ hbc ih => exact netInv_step hbc ih

theorem not_mem_eraseP_of_countP_le_one {pr : Nat → Bool} {x : Nat}
    (hx : pr x = true) :
    ∀ l : List Nat, l.countP pr ≤ 1 → x ∉ l.eraseP pr := by
  intro l
  induction l with
  | nil =>
    intro _ h
    cases h
  | cons a t ih =>
    intro hc
    by_cases ha : pr a = true
    · rw [List.eraseP_cons_of_pos ha]
      have hcnt : List.countP pr (a :: t) = List.countP pr t + 1 :=
        List.countP_cons_of_pos _ _ ha
      rw [hcnt] at hc
      have ht : t.countP pr = 0 := by omega
      intro hmem
      exact List.countP_eq_zero.mp ht x hmem hx
    · rw [List.eraseP_cons_of_neg ha]
      have hcnt : List.countP pr (a :: t) = List.countP pr t :=
        List.countP_cons_of_neg _ _ ha
      rw [hcnt] at hc
      intro hmem
      rcases List.mem_cons.mp hmem with he | ht2
      · rw [he] at hx
        exact ha hx
      · exact ih hc ht2

/-- C1: under every sequence of connection-establishment, shutdown and
client-spawn calls from a clean start, the triple bookkeeping stays
consistent: a connection record is in the global table iff it is in its
source peer's connection set and in its target peer's connection set. -/
theorem c1_triple_bookkeeping (s0 s : NetState) (h0 : InitOk s0)
    (hr : Reachable s0 s) (c : Conn) :
    c ∈ s.conns ↔
      ((∃ ps, s.heap[c.source]? = some ps ∧ c ∈ ps.conns) ∧
        (∃ pt, s.heap[c.target]? = some pt ∧ c ∈ pt.conns)) := by
  have hinv := netInv_reachable h0 hr
  constructor
  · intro hc
    obtain ⟨_, hA, hB⟩ := hinv.1 c hc
    exact ⟨hA, hB⟩
  · rintro ⟨⟨ps, hs, hm⟩, _⟩
    exact (hinv.2.1 c.source ps hs c hm).1

/-- Witness for C1: one establishment step from a two-peer initial
state, checked on the created connection. -/
theorem c1_triple_bookkeeping_witness :
    (⟨0, 0, 1, 7⟩ : Conn) ∈ (addStreamConnection
      ⟨[⟨"c", .client (some 7), true, []⟩, ⟨"r", .relay "z", true, []⟩],
        [0], [], 0⟩ 0 1 7).conns ↔
      ((∃ ps, (addStreamConnection
        ⟨[⟨"c", .client (some 7), true, []⟩, ⟨"r", .relay "z", true, []⟩],
          [0], [], 0⟩ 0 1 7).heap[(0 : Nat)]? = some ps ∧ (⟨0, 0, 1, 7⟩ : Conn) ∈ ps.conns) ∧
        (∃ pt, (addStreamConnection
          ⟨[⟨"c", .client (some 7), true, []⟩, ⟨"r", .relay "z", true, []⟩],
            [0], [], 0⟩ 0 1 7).heap[(1 : Nat)]? = some pt ∧ (⟨0, 0, 1, 7⟩ : Conn) ∈ pt.conns)) :=
  c1_triple_bookkeeping
    ⟨[⟨"c", .client (some 7), true, []⟩, ⟨"r", .relay "z", true, []⟩], [0], [], 0⟩
    (addStreamConnection
      ⟨[⟨"c", .client (some 7), true, []⟩, ⟨"r", .relay "z", true, []⟩], [0], [], 0⟩ 0 1 7)
    (by decide)
    (Relation.ReflTransGen.single (NetStep.estab _ 0 1 7))
    ⟨0, 0, 1, 7⟩

/-- C2: for every reachable state and client peer whose name is unique
in the clients registry, after `shutdown` completes the peer is not
running, no connection in the global table or in any peer's local set
references it as source or target, and it is absent from the global
clients registry. -/
theorem c2_shutdown_clean (s0 s : NetState) (h0 : InitOk s0) (hr : Reachable s0 s)
    (pid : Nat) (p : PeerRec) (hp : s.heap[pid]? = some p)
    (huniq : s.clients.countP (clientNameMatches s.heap p.name) ≤ 1) :
    (((shutdown s pid).heap[pid]?).map PeerRec.running = some false) ∧
    (∀ c ∈ (shutdown s pid).conns, c.source ≠ pid ∧ c.target ≠ pid) ∧
    (∀ (q : Nat) (pq : PeerRec), (shutdown s pid).heap[q]? = some pq →
      ∀ c ∈ pq.conns, c.source ≠ pid ∧ c.target ≠ pid) ∧
    pid ∉ (shutdown s pid).clients := by
  have hinv := netInv_reachable h0 hr
  have hinvF : NetInv (shutdown s pid) := netInv_shutdown s pid hinv
  rw [shutdown_eq s pid p hp] at hinvF ⊢
  set s1 : NetState := modifyPeer s pid (fun q => { q with running := false }) with hs1def
  set s2 : NetState :=
    { s1 with clients := s1.clients.eraseP (clientNameMatches s1.heap p.name) } with hs2def
  have hs1p : s1.heap[pid]? = some { p with running := false } := by
    rw [hs1def]
    exact modifyPeer_heap_same _ hp
  have hs1conns : s1.conns = s.conns := by
    rw [hs1def]
    exact modifyPeer_conns s pid _
  have hglob : ∀ c ∈ (p.conns.foldl removeConnEverywhere s2).conns,
      c.source ≠ pid ∧ c.target ≠ pid := by
    intro c hc
    have hcs2 : c ∈ s2.conns := fold_remove_conns_subset p.conns s2 c hc
    have hcs : c ∈ s.conns := by
      rw [← hs1conns]
      exact hcs2
    have hkey : c ∈ p.conns → False := by
      intro hcp
      exact fold_remove_removes p.conns s2 c hcp c hc rfl
    constructor
    · intro hcsrc
      obtain ⟨_, ⟨ps', hs', hm'⟩, _⟩ := hinv.1 c hcs
      have hpe : ps' = p := by
        rw [hcsrc] at hs'
        rw [hs'] at hp
        exact Option.some_injective _ hp
      rw [hpe] at hm'
      exact hkey hm'
    · intro hctgt
      obtain ⟨_, _, ⟨pt', ht', hm2'⟩⟩ := hinv.1 c hcs
      have hpe : pt' = p := by
        rw [hctgt] at ht'
        rw [ht'] at hp
        exact Option.some_injective _ hp
      rw [hpe] at hm2'
      exact hkey hm2'
  refine ⟨?_, hglob, ?_, ?_⟩
  · rw [fold_remove_running p.conns s2 pid]
    show (s1.heap[pid]?).map PeerRec.running = some false
    rw [hs1p]
    rfl
  · intro q pq hq' c hc
    exact hglob c (hinvF.2.1 q pq hq' c hc).1
  · have hcl : (p.conns.foldl removeConnEverywhere s2).clients = s2.clients :=
      fold_remove_clients p.conns s2
    rw [hcl]
    have hnamePred : clientNameMatches s1.heap p.name =
        clientNameMatches s.heap p.name := by
      funext q
      unfold clientNameMatches
      by_cases hq : q = pid
      · subst hq
        rw [hs1p, hp]
      · have hother : s1.heap[q]? = s.heap[q]? := by
          rw [hs1def]
          exact modifyPeer_heap_other s _ hq
        rw [hother]
    show pid ∉ s1.clients.eraseP (clientNameMatches s1.heap p.name)
    have hclients1 : s1.clients = s.clients := by
      rw [hs1def]
      exact modifyPeer_clients s pid _
    rw [hclients1, hnamePred]
    refine not_mem_eraseP_of_countP_le_one ?_ s.clients huniq
    unfold clientNameMatches
    rw [hp]
    simp

/-- Witness for C2: establish one connection from a two-peer initial
state, then shut the client down. -/
theorem c2_shutdown_clean_witness :
    ((((shutdown (addStreamConnection
      ⟨[⟨"c", .client (some 7), true, []⟩, ⟨"r", .relay "z", true, []⟩],
        [0], [], 0⟩ 0 1 7) 0).heap[(0 : Nat)]?).map PeerRec.running = some false) ∧
    (∀ c ∈ (shutdown (addStreamConnection
      ⟨[⟨"c", .client (some 7), true, []⟩, ⟨"r", .relay "z", true, []⟩],
        [0], [], 0⟩ 0 1 7) 0).conns, c.source ≠ 0 ∧ c.target ≠ 0) ∧
    (∀ (q : Nat) (pq : PeerRec), (shutdown (addStreamConnection
      ⟨[⟨"c", .client (some 7), true, []⟩, ⟨"r", .relay "z", true, []⟩],
        [0], [], 0⟩ 0 1 7) 0).heap[q]? = some pq →
      ∀ c ∈ pq.conns, c.source ≠ 0 ∧ c.target ≠ 0) ∧
    (0 : Nat) ∉ (shutdown (addStreamConnection
      ⟨[⟨"c", .client (some 7), true, []⟩, ⟨"r", .relay "z", true, []⟩],
        [0], [], 0⟩ 0 1 7) 0).clients) :=
  c2_shutdown_clean
    ⟨[⟨"c", .client (some 7), true, []⟩, ⟨"r", .relay "z", true, []⟩], [0], [], 0⟩
    (addStreamConnection
      ⟨[⟨"c", .client (some 7), true, []⟩, ⟨"r", .relay "z", true, []⟩], [0], [], 0⟩ 0 1 7)
    (by decide)
    (Relation.ReflTransGen.single (NetStep.estab _ 0 1 7))
    0 ⟨"c", .client (some 7), true, [⟨0, 0, 1, 7⟩]⟩
    (by decide)
    (by decide)

theorem evLt_asymm {a b : Ev} (h1 : evLt a b) (h2 : evLt b a) : False := by
  rcases h1 with h1 | ⟨he1, hs1⟩ <;> rcases h2 with h2 | ⟨he2, hs2⟩
  · exact absurd h2 (lt_asymm h1)
  · rw [he2] at h1
    exact lt_irrefl _ h1
  · rw [he1] at h2
    exact lt_irrefl _ h2
  · omega

theorem mem_insertEv {e x : Ev} : ∀ {l : List Ev}, x ∈ insertEv e l ↔ x = e ∨ x ∈ l := by
  intro l
  induction l with
  | nil => simp [insertEv]
  | cons f t ih =>
    simp only [insertEv]
    by_cases hf : f.fireTime < e.fireTime
    · rw [if_pos hf]
      simp only [List.mem_cons, ih]
      tauto
    · rw [if_neg hf]
      simp only [List.mem_cons]

theorem mem_sortEvents {x : Ev} : ∀ {l : List Ev}, x ∈ sortEvents l ↔ x ∈ l := by
  intro l
  induction l with
  | nil => simp [sortEvents]
  | cons f t ih =>
    simp only [sortEvents, mem_insertEv, List.mem_cons, ih]

theorem pairwise_evLt_insertEv {e : Ev} :
    ∀ {l : List Ev}, l.Pairwise evLt →
      (∀ f ∈ l, e.fireTime = f.fireTime → e.seq < f.seq) →
      (insertEv e l).Pairwise evLt := by
  intro l
  induction l with
  | nil =>
    intro _ _
    exact List.pairwise_singleton _ _
  | cons f t ih =>
    intro hl he
    obtain ⟨hf, ht⟩ := List.pairwise_cons.mp hl
    simp only [insertEv]
    by_cases hlt : f.fireTime < e.fireTime
    · rw [if_pos hlt]
      rw [List.pairwise_cons]
      constructor
      · intro g hg
        rcases mem_insertEv.mp hg with hge | hgt
        · rw [hge]
          exact Or.inl hlt
        · exact hf g hgt
      · exact ih ht (fun g hg => he g (List.mem_cons_of_mem f hg))
    · rw [if_neg hlt]
      rw [List.pairwise_cons]
      constructor
      · intro g hg
        rcases List.mem_cons.mp hg with hge | hgt
        · rw [hge]
          rcases lt_or_eq_of_le (le_of_not_lt hlt) with h2 | h2
          · exact Or.inl h2
          · exact Or.inr ⟨h2, he f (List.mem_cons_self f t) h2⟩
        · have hfg := hf g hgt
          have hef : e.fireTime ≤ f.fireTime := le_of_not_lt hlt
          rcases hfg with hfg | ⟨hfg, _⟩
          · exact Or.inl (lt_of_le_of_lt hef hfg)
          · rcases lt_or_eq_of_le hef with h2 | h2
            · exact Or.inl (h2.trans_le (le_of_eq hfg))
            · exact Or.inr ⟨h2.trans hfg,
                he g (List.mem_cons_of_mem f hgt) (h2.trans hfg)⟩
      · exact hl

theorem sortEvents_pairwise :
    ∀ {l : List Ev},
      l.Pairwise (fun a b => a.fireTime = b.fireTime → a.seq < b.seq) →
      (sortEvents l).Pairwise evLt := by
  intro l
  induction l with
  | nil =>
    intro _
    exact List.Pairwise.nil
  | cons x xs ih =>
    intro h
    obtain ⟨hx, hxs⟩ := List.pairwise_cons.mp h
    exact pairwise_evLt_insertEv (ih hxs)
      (fun f hf => hx f (mem_sortEvents.mp hf))

theorem pairwise_head_of_least {l : List Ev} {e : Ev} (hp : l.Pairwise evLt)
    (hm : e ∈ l) (hall : ∀ f ∈ l, f = e ∨ evLt e f) : ∃ t : List Ev, l = e :: t := by
  cases l with
  | nil => cases hm
  | cons h t =>
    rcases hall h (List.mem_cons_self h t) with hhe | hlt
    · exact ⟨t, by rw [hhe]⟩
    · exfalso
      rcases List.mem_cons.mp hm with hem | het
      · rw [hem] at hlt
        exact evLt_asymm hlt hlt
      · exact evLt_asymm hlt ((List.pairwise_cons.mp hp).1 e het)

theorem schedInv_push (s : SchedState) (d : ℚ) (hd : 0 ≤ d) (h : SchedInv s) :
    SchedInv (pushEvent s d) := by
  obtain ⟨h1, h2, h3, h4, h5⟩ := h
  have hstab : (s.events ++ [(⟨s.currentTime + d, s.nextSeq⟩ : Ev)]).Pairwise
      (fun a b => a.fireTime = b.fireTime → a.seq < b.seq) := by
    rw [List.pairwise_append]
    refine ⟨?_, List.pairwise_singleton _ _, ?_⟩
    · refine h1.imp ?_
      intro a b hab heq
      rcases hab with hlt | ⟨_, hs⟩
      · rw [heq] at hlt
        exact absurd hlt (lt_irrefl _)
      · exact hs
    · intro a ha b hb _
      rw [List.mem_singleton.mp hb]
      exact (h2 a ha).2
  refine ⟨sortEvents_pairwise hstab, ?_, h3, ?_, ?_⟩
  · intro e he
    have he' : e ∈ s.events ++ [(⟨s.currentTime + d, s.nextSeq⟩ : Ev)] :=
      mem_sortEvents.mp he
    rcases List.mem_append.mp he' with hold | hnew
    · obtain ⟨hct, hsq⟩ := h2 e hold
      refine ⟨hct, ?_⟩
      show e.seq < s.nextSeq + 1
      omega
    · rw [List.mem_singleton.mp hnew]
      refine ⟨le_add_of_nonneg_right hd, ?_⟩
      show s.nextSeq < s.nextSeq + 1
      omega
  · intro f hf e he
    have he' : e ∈ s.events ++ [(⟨s.currentTime + d, s.nextSeq⟩ : Ev)] :=
      mem_sortEvents.mp he
    rcases List.mem_append.mp he' with hold | hnew
    · exact h4 f hf e hold
    · rw [List.mem_singleton.mp hnew]
      have hle : f.fireTime ≤ s.currentTime + d :=
        le_trans (h5 f hf).1 (le_add_of_nonneg_right hd)
      rcases lt_or_eq_of_le hle with hlt | heq
      · exact Or.inl hlt
      · exact Or.inr ⟨heq, (h5 f hf).2⟩
  · intro f hf
    obtain ⟨hct, hsq⟩ := h5 f hf
    refine ⟨hct, ?_⟩
    show f.seq < s.nextSeq + 1
    omega

theorem schedInv_fold_push (ds : List ℚ) :
    ∀ s : SchedState, (∀ d ∈ ds, 0 ≤ d) → SchedInv s →
      SchedInv (ds.foldl pushEvent s) := by
  induction ds with
  | nil => intro s _ h; exact h
  | cons d t ih =>
    intro s hds h
    rw [List.foldl_cons]
    exact ih (pushEvent s d)
      (fun d2 h2 => hds d2 (List.mem_cons_of_mem d h2))
      (schedInv_push s d (hds d (List.mem_cons_self d t)) h)

theorem fold_push_facts (ds : List ℚ) :
    ∀ s : SchedState, (∀ d ∈ ds, 0 ≤ d) →
      (ds.foldl pushEvent s).currentTime = s.currentTime ∧
      (ds.foldl pushEvent s).fired = s.fired ∧
      s.nextSeq ≤ (ds.foldl pushEvent s).nextSeq ∧
      (∀ f ∈ (ds.foldl pushEvent s).events, f ∈ s.events ∨
        (s.currentTime ≤ f.fireTime ∧ s.nextSeq ≤ f.seq)) ∧
      (∀ e ∈ s.events, e ∈ (ds.foldl pushEvent s).events) := by
  induction ds with
  | nil =>
    intro s _
    exact ⟨rfl, rfl, le_refl _, fun f hf => Or.inl hf, fun e he => he⟩
  | cons d t ih =>
    intro s hds
    rw [List.foldl_cons]
    obtain ⟨ict, ifired, iseq, iold, ikeep⟩ :=
      ih (pushEvent s d) (fun d2 h2 => hds d2 (List.mem_cons_of_mem d h2))
    have hd : 0 ≤ d := hds d (List.mem_cons_self d t)
    refine ⟨ict, ifired, ?_, ?_, ?_⟩
    · exact le_trans (Nat.le_succ _) iseq
    · intro f hf
      rcases iold f hf with hmem | ⟨hct, hseq⟩
      · have hmem' : f ∈ s.events ++ [(⟨s.currentTime + d, s.nextSeq⟩ : Ev)] :=
          mem_sortEvents.mp hmem
        rcases List.mem_append.mp hmem' with hold | hnew
        · exact Or.inl hold
        · rw [List.mem_singleton.mp hnew]
          exact Or.inr ⟨le_add_of_nonneg_right hd, le_refl _⟩
      · refine Or.inr ⟨hct, ?_⟩
        have : s.nextSeq ≤ s.nextSeq + 1 := Nat.le_succ _
        exact le_trans this hseq
    · intro e he
      refine ikeep e ?_
      show e ∈ sortEvents (s.events ++ [(⟨s.currentTime + d, s.nextSeq⟩ : Ev)])
      rw [mem_sortEvents]
      exact List.mem_append_left _ he

theorem fireEvent_eq (s : SchedState) (ds : List ℚ) (e : Ev) (rest : List Ev)
    (h : s.events = e :: rest) :
    fireEvent s ds =
      { ds.foldl pushEvent { s with currentTime := e.fireTime } with
        events := (ds.foldl pushEvent { s with currentTime := e.fireTime }).events.tail
        fired := (ds.foldl pushEvent { s with currentTime := e.fireTime }).fired ++ [e] } := by
  simp only [fireEvent, h]

theorem schedInv_fire (s : SchedState) (ds : List ℚ) (hds : ∀ d ∈ ds, 0 ≤ d)
    (h : SchedInv s) : SchedInv (fireEvent s ds) := by
  cases hev : s.events with
  | nil =>
    simp only [fireEvent, hev]
    exact h
  | cons e rest =>
    rw [fireEvent_eq s ds e rest hev]
    obtain ⟨h1, h2, h3, h4, h5⟩ := h
    have hememS : e ∈ s.events := by
      rw [hev]
      exact List.mem_cons_self e rest
    have hemin : ∀ f ∈ s.events, e.fireTime ≤ f.fireTime := by
      intro f hf
      rw [hev] at hf
      rcases List.mem_cons.mp hf with hfe | hft
      · rw [hfe]
      · rcases (List.pairwise_cons.mp (hev ▸ h1)).1 f hft with hlt | ⟨heq, _⟩
        · exact le_of_lt hlt
        · exact le_of_eq heq
    have hcte : s.currentTime ≤ e.fireTime := (h2 e hememS).1
    have hInv1 : SchedInv { s with currentTime := e.fireTime } := by
      refine ⟨h1, ?_, h3, h4, ?_⟩
      · intro ev hevm
        exact ⟨hemin ev hevm, (h2 ev hevm).2⟩
      · intro f hf
        exact ⟨le_trans (h5 f hf).1 hcte, (h5 f hf).2⟩
    have hInv2 := schedInv_fold_push ds _ hds hInv1
    obtain ⟨hct2, hfired2, hseq2, hold2, hkeep2⟩ :=
      fold_push_facts ds { s with currentTime := e.fireTime } hds
    have hemem : e ∈ (ds.foldl pushEvent { s with currentTime := e.fireTime }).events := by
      refine hkeep2 e ?_
      show e ∈ s.events
      exact hememS
    have hseqe : e.seq < s.nextSeq := (h2 e hememS).2
    have hleast : ∀ f ∈ (ds.foldl pushEvent
        { s with currentTime := e.fireTime }).events, f = e ∨ evLt e f := by
      intro f hf
      rcases hold2 f hf with hfs | ⟨hft, hfseq⟩
      · have hfs' : f ∈ s.events := hfs
        rw [hev] at hfs'
        rcases List.mem_cons.mp hfs' with hfe | hfr
        · exact Or.inl hfe
        · exact Or.inr ((List.pairwise_cons.mp (hev ▸ h1)).1 f hfr)
      · right
        have hseqf : e.seq < f.seq := lt_of_lt_of_le hseqe hfseq
        have hft' : e.fireTime ≤ f.fireTime := hft
        rcases lt_or_eq_of_le hft' with hlt | heq
        · exact Or.inl hlt
        · exact Or.inr ⟨heq, hseqf⟩
    obtain ⟨tail2, htail⟩ := pairwise_head_of_least hInv2.1 hemem hleast
    have htcons := List.pairwise_cons.mp (htail ▸ hInv2.1)
    refine ⟨?_, ?_, ?_, ?_, ?_⟩
    · show ((ds.foldl pushEvent
        { s with currentTime := e.fireTime }).events.tail).Pairwise evLt
      rw [htail]
      exact htcons.2
    · intro ev hevm
      have hevm' : ev ∈ (ds.foldl pushEvent
          { s with currentTime := e.fireTime }).events := by
        rw [htail]
        rw [htail] at hevm
        exact List.mem_cons_of_mem e hevm
      exact hInv2.2.1 ev hevm'
    · show ((ds.foldl pushEvent
        { s with currentTime := e.fireTime }).fired ++ [e]).Pairwise evLt
      rw [hfired2]
      rw [List.pairwise_append]
      refine ⟨h3, List.pairwise_singleton _ _, ?_⟩
      intro f hf b hb
      rw [List.mem_singleton.mp hb]
      exact h4 f hf e hememS
    · intro f hfm ev hevm
      have hevm' : ev ∈ (ds.foldl pushEvent
          { s with currentTime := e.fireTime }).events := by
        rw [htail]
        rw [htail] at hevm
        exact List.mem_cons_of_mem e hevm
      rcases List.mem_append.mp hfm with hfold | hfe
      · exact hInv2.2.2.2.1 f hfold ev hevm'
      · rw [List.mem_singleton.mp hfe]
        rw [htail] at hevm
        exact htcons.1 ev hevm
    · intro f hfm
      rcases List.mem_append.mp hfm with hfold | hfe
      · have hfold' : f ∈ s.fired := by
          rw [hfired2] at hfold
          exact hfold
        obtain ⟨hct, hsq⟩ := h5 f hfold'
        refine ⟨?_, ?_⟩
        · show f.fireTime ≤ (ds.foldl pushEvent
            { s with currentTime := e.fireTime }).currentTime
          rw [hct2]
          exact le_trans hct hcte
        · show f.seq < (ds.foldl pushEvent
            { s with currentTime := e.fireTime }).nextSeq
          exact lt_of_lt_of_le hsq hseq2
      · rw [List.mem_singleton.mp hfe]
        refine ⟨?_, ?_⟩
        · show e.fireTime ≤ (ds.foldl pushEvent
            { s with currentTime := e.fireTime }).currentTime
          rw [hct2]
        · show e.seq < (ds.foldl pushEvent
            { s with currentTime := e.fireTime }).nextSeq
          exact lt_of_lt_of_le hseqe hseq2

theorem schedInv_step {s s' : SchedState} (hs : SchedStep s s') (h : SchedInv s) :
    SchedInv s' := by
  cases hs with
  | push d hd => exact schedInv_push s d hd h
  | fire ds hds => exact schedInv_fire s ds hds h

theorem schedInv_reachable {s : SchedState} (hr : SchedReachable s) : SchedInv s := by
  unfold SchedReachable at hr
  induction hr with
  | refl =>
    refine ⟨List.Pairwise.nil, ?_, List.Pairwise.nil, ?_, ?_⟩
    · intro e he; cases he
    · intro f hf; cases hf
    · intro f hf; cases hf
  | tail _ hbc ih => exact schedInv_step hbc ih

theorem fireEvent_currentTime (s : SchedState) (ds : List ℚ) (e : Ev) (rest : List Ev)
    (hds : ∀ d ∈ ds, 0 ≤ d) (h : s.events = e :: rest) :
    (fireEvent s ds).currentTime = e.fireTime := by
  rw [fireEvent_eq s ds e rest h]
  show (ds.foldl pushEvent { s with currentTime := e.fireTime }).currentTime = e.fireTime
  rw [(fold_push_facts ds { s with currentTime := e.fireTime } hds).1]

/-- C9: in every reachable scheduler state, the fired trace is strictly
increasing in (fire time, scheduling order) — so continuations fire in
non-decreasing fire-time order with the deterministic scheduling-order
tie-break; no step ever decreases the virtual clock; a registration
leaves the clock unchanged; and a timer expiry jumps the clock exactly
to the head event's fire time, which is minimal among all pending fire
times. -/
theorem c9_scheduler (s : SchedState) (hr : SchedReachable s) :
    s.fired.Pairwise evLt ∧
    (∀ s' : SchedState, SchedStep s s' → s.currentTime ≤ s'.currentTime) ∧
    (∀ d : ℚ, (pushEvent s d).currentTime = s.currentTime) ∧
    (∀ (ds : List ℚ) (e : Ev) (rest : List Ev), (∀ d ∈ ds, 0 ≤ d) →
      s.events = e :: rest →
      (fireEvent s ds).currentTime = e.fireTime ∧
        ∀ f ∈ s.events, e.fireTime ≤ f.fireTime) := by
  have hinv := schedInv_reachable hr
  have hmin : ∀ (e : Ev) (rest : List Ev), s.events = e :: rest →
      ∀ f ∈ s.events, e.fireTime ≤ f.fireTime := by
    intro e rest hev f hf
    rw [hev] at hf
    rcases List.mem_cons.mp hf with hfe | hft
    · rw [hfe]
    · rcases (List.pairwise_cons.mp (hev ▸ hinv.1)).1 f hft with hlt | ⟨heq, _⟩
      · exact le_of_lt hlt
      · exact le_of_eq heq
  refine ⟨hinv.2.2.1, ?_, fun d => rfl, ?_⟩
  · intro s' hs
    cases hs with
    | push d hd =>
      show s.currentTime ≤ s.currentTime
      exact le_refl _
    | fire ds hds =>
      cases hev : s.events with
      | nil =>
        simp only [fireEvent, hev]
        exact le_refl _
      | cons e rest =>
        rw [fireEvent_currentTime s ds e rest hds hev]
        exact (hinv.2.1 e (by rw [hev]; exact List.mem_cons_self e rest)).1
  · intro ds e rest hds hev
    exact ⟨fireEvent_currentTime s ds e rest hds hev, hmin e rest hev⟩

/-- Witness for C9 after scheduling continuations at times 5 and 3: the
expiry jumps the clock to 3, the minimum pending fire time. -/
theorem c9_scheduler_witness :
    (fireEvent (pushEvent (pushEvent schedInit 5) 3) []).currentTime =
      (⟨3, 1⟩ : Ev).fireTime ∧
    ∀ f ∈ (pushEvent (pushEvent schedInit 5) 3).events,
      (⟨3, 1⟩ : Ev).fireTime ≤ f.fireTime :=
  (c9_scheduler (pushEvent (pushEvent schedInit 5) 3)
    (Relation.ReflTransGen.tail
      (Relation.ReflTransGen.single (SchedStep.push schedInit 5 (by norm_num)))
      (SchedStep.push (pushEvent schedInit 5) 3 (by norm_num)))).2.2.2
    [] ⟨3, 1⟩ [⟨5, 0⟩]
    (by intro d hd; cases hd)
    (by simp [pushEvent, sortEvents, insertEv, schedInit]; norm_num)
